import Mathlib

/-!
Shallow embedding of the circuit-analysis engine of the `electric_circuits`
package (files `circuits.py`, `wire.py`, `devices.py`, `signed_wires.py`).

Modelling conventions:
* Junctions are natural-number identifiers; `Circuit.junctions` lists them in
  iteration order (Python iterates sets in an unspecified order; the embedding
  fixes one concrete order, which is a legitimate refinement of that order).
  The earth junction created by `Circuit.__init__` is id `0`.
* A `Wire` keeps the topological fields (`wid`, terminals, switch, inductor
  nullity) together with the electrical relations as functions `ℚ → ℚ`
  (the source stores `Resistor`, `Battery`, ... objects whose `resistance`,
  `emf`, ... methods are constants or callables of time) and the accumulated
  series `q`, `dq_dt`, `d2q_dt2`.
* `Junction.wires` is the set of incident wires; `Circuit.connect` keeps the
  junction and wire sides synchronized, so the embedding derives incidence
  from the wires themselves (`incidentWires`).
* Python `float` arithmetic is embedded as exact `ℚ` arithmetic.
* Recursive procedures (`Circuit.__loops`, `Circuit.__calculate_potentials`)
  terminate in the source because the `parsed`/`calculated` lists only grow
  inside a finite junction set; the embedding makes the same bound explicit
  with a fuel parameter that is larger than any reachable recursion depth.
-/

namespace Circuits

/-- Traversal sign, from the source enum `Sign(IntEnum)` with values
`MINUS = -1`, `ZERO = 0`, `PLUS = 1`. -/
inductive Sign where
  | MINUS
  | ZERO
  | PLUS
  deriving DecidableEq

/-- Numeric value of a `Sign` (the source uses the enum directly in
arithmetic and through `float(...)`). -/
def Sign.toQ : Sign → ℚ
  | .MINUS => -1
  | .ZERO => 0
  | .PLUS => 1

/-- One branch (`wire.py: class Wire`).  `closed` is the switch state,
`ind` is `Inductor.is_not_null()`.  The electrical callables of the attached
devices are carried as functions of time; `capC` is the capacitance function
(the capacitor's potential drop is derived below exactly as in the source).
`q`, `dq_dt` and `d2q_dt2` are the accumulated per-branch time series. -/
structure Wire where
  wid : ℕ
  startJ : ℕ
  endJ : ℕ
  closed : Bool
  ind : Bool
  resistorR : ℚ → ℚ
  emf : ℚ → ℚ
  acEmf : ℚ → ℚ
  capC : ℚ → ℚ
  inductance : ℚ → ℚ
  galvR : ℚ → ℚ
  ammR : ℚ → ℚ
  voltR : ℚ → ℚ
  q : List ℚ
  dq_dt : List ℚ
  d2q_dt2 : List ℚ

/-- The network (`circuits.py: class Circuit`): the owned wires and the
junction ids, each list in iteration order. -/
structure Circuit where
  wires : List Wire
  junctions : List ℕ

/-- Source `Junction.wires`: the set of wires incident to junction `j`
(derived from the wires, see the module docstring). -/
def incidentWires (c : Circuit) (j : ℕ) : List Wire :=
  c.wires.filter (fun w => w.startJ = j || w.endJ = j)

/-- Degree of a junction: `len(junction.wires)`. -/
def degJ (c : Circuit) (j : ℕ) : ℕ := (incidentWires c j).length

/-- Source `Wire.is_null`: open switch, or a terminal junction with no wires
(`Junction.is_null`), or a terminal junction with exactly one wire
(`Junction.is_singular`). -/
def isNull (c : Circuit) (w : Wire) : Bool :=
  !w.closed || degJ c w.startJ == 0 || degJ c w.endJ == 0
    || degJ c w.startJ == 1 || degJ c w.endJ == 1

/-- Source `Wire.other_junction` (total on the wire's own terminals, which is the
only way the engine calls it). -/
def otherJunction (w : Wire) (j : ℕ) : ℕ :=
  if j = w.startJ then w.endJ else w.startJ

/-- Source `Wire.net_resistance`: resistor plus galvanometer, ammeter and voltmeter
internal resistances. -/
def netResistance (w : Wire) (t : ℚ) : ℚ :=
  w.resistorR t + w.galvR t + w.ammR t + w.voltR t

/-- Source `Capacitor.potential_drop`: `charge / capacitance(t)` when the
capacitance is nonzero, else `0`. -/
def capDrop (w : Wire) (t chg : ℚ) : ℚ :=
  if w.capC t ≠ 0 then chg / w.capC t else 0

/-- One signed traversal entry of a `SignedWires` collection. -/
abbrev SWire := Wire × Sign

/-- A `SignedWires` value (`signed_wires.py`): parallel wire/sign lists,
embedded as a single list of pairs. -/
abbrev Loop := List SWire

/-- Source `Circuit.__loops`: depth-first search for the closed loops through the
seed wire.  At `current_junction` every incident wire other than the wire
just traversed is considered; null wires are skipped; the traversal sign is
`PLUS` when the junction is the wire's starting terminal; reaching
`endpoint` records the accumulated path as a loop; junctions already on the
path (`parsed_junctions`) are not re-entered.  The fuel argument only makes
the (always finite) recursion depth explicit. -/
def loopsAux (c : Circuit) (endpoint : ℕ) :
    ℕ → ℕ → ℕ → Loop → List ℕ → List Loop
  | 0, _, _, _, _ => []
  | fuel + 1, curJ, curW, path, parsed =>
    (incidentWires c curJ).flatMap fun nw =>
      if nw.wid = curW then []
      else if isNull c nw then []
      else if otherJunction nw curJ = endpoint then
        [path ++ [(nw, if curJ = nw.startJ then Sign.PLUS else Sign.MINUS)]]
      else if otherJunction nw curJ ∈ parsed then []
      else
        loopsAux c endpoint fuel (otherJunction nw curJ) nw.wid
          (path ++ [(nw, if curJ = nw.startJ then Sign.PLUS else Sign.MINUS)])
          (parsed ++ [otherJunction nw curJ])

/-- Fuel bound for the loop search: strictly more than the number of
junctions, hence more than the depth of any simple search path. -/
def dfsFuel (c : Circuit) : ℕ := c.junctions.length + c.wires.length + 1

/-- Body of `Circuit.__get_loops` after the null-seed guard: seed the path
with the main wire at sign `PLUS` and search from its ending junction back
to its starting junction. -/
def loopsOf (c : Circuit) (w : Wire) : List Loop :=
  loopsAux c w.startJ (dfsFuel c) w.endJ w.wid [(w, Sign.PLUS)] [w.endJ]

/-- Source `Circuit.__get_loops`: raises `CircuitError` on a null seed, otherwise
returns the discovered loops. -/
def getLoops (c : Circuit) (w : Wire) : Except String (List Loop) :=
  if isNull c w then .error "main_wire is null"
  else .ok (loopsOf c w)

/-- Predicate deciding the `null_wires` side of
`Circuit.__calculate_effective_wires`: `wire.is_null or len(__get_loops(wire)) == 0`. -/
def wireNullClass (c : Circuit) (w : Wire) : Bool :=
  isNull c w || (loopsOf c w).isEmpty

/-- Source `Circuit.__calculate_effective_wires`: partition of all wires into
`(effective_wires, null_wires)`. -/
def calculateEffectiveWires (c : Circuit) : List Wire × List Wire :=
  (c.wires.filter (fun w => !wireNullClass c w),
   c.wires.filter (fun w => wireNullClass c w))

/-! ### First-law equation selection (`Circuit.__first_law_wires`) -/

/-- Accumulator of the selection loop: the accepted equations, the
`possible_wire_combos` set of frozensets (a wire set is embedded as the
`Finset` of wire ids), and — as a projection of the same fold for stating
properties — the list of accepted candidate sets, most recent first. -/
structure FLState where
  eqs : List Loop
  combos : List (Finset ℕ)
  accepted : List (Finset ℕ)

/-- Source `junction.wires - self.null_wires` for a junction. -/
def junctionWires (c : Circuit) (nullWids : List ℕ) (j : ℕ) : List Wire :=
  (incidentWires c j).filter (fun w => !nullWids.contains w.wid)

/-- Source `effective_junction_wires`: all junction wires, except that when the
junction has a mix of inductive and non-inductive wires the inductive ones
are removed. -/
def flCandidate (jw : List Wire) : List Wire :=
  if jw.all (fun w => w.ind) then jw else jw.filter (fun w => !w.ind)

/-- The candidate as a set of wire ids (`frozenset(effective_junction_wires)`). -/
def flCandSet (jw : List Wire) : Finset ℕ :=
  ((flCandidate jw).map Wire.wid).toFinset

/-- The accepted equation at a junction: every junction wire, signed `PLUS`
when the junction is its starting terminal and `MINUS` otherwise. -/
def junctionEq (j : ℕ) (jw : List Wire) : Loop :=
  jw.map (fun w => (w, if j = w.startJ then Sign.PLUS else Sign.MINUS))

/-- One iteration of the junction loop of `Circuit.__first_law_wires`:
skip small junctions, skip a candidate already in `possible_wire_combos`,
otherwise add the candidate and all symmetric differences with the existing
combos, and append the junction's signed equation. -/
def firstLawStep (c : Circuit) (nullWids : List ℕ) (st : FLState) (j : ℕ) : FLState :=
  let jw := junctionWires c nullWids j
  if jw.length = 0 ∨ jw.length = 1 then st
  else
    let cand := flCandSet jw
    if cand ∈ st.combos then st
    else
      let combos2 := st.combos ++ [cand]
      { eqs := st.eqs ++ [junctionEq j jw],
        combos := combos2 ++ combos2.map (fun t => symmDiff t cand),
        accepted := cand :: st.accepted }

/-- The whole junction loop of `Circuit.__first_law_wires`. -/
def firstLawFold (c : Circuit) (nullWids : List ℕ) (js : List ℕ) : FLState :=
  js.foldl (firstLawStep c nullWids) ⟨[], [], []⟩

/-- Source `Circuit.__first_law_wires()` (the returned equations). -/
def firstLawWires (c : Circuit) (nullWids : List ℕ) : List Loop :=
  (firstLawFold c nullWids c.junctions).eqs

/-! ### Second-law equation selection (`Circuit.__second_law_wires`) -/

/-- Accumulator: accepted loop equations and `parsed_wires` (ids). -/
structure SLState where
  eqs : List Loop
  parsed : Finset ℕ

/-- Source `set(loop.wires)` as a set of wire ids. -/
def loopWidSet (L : Loop) : Finset ℕ := (L.map (fun p => p.1.wid)).toFinset

/-- Inner iteration: skip a loop whose wires are already covered by
`parsed_wires`, otherwise mark them covered and accept the loop. -/
def secondLawLoopStep (st : SLState) (L : Loop) : SLState :=
  if loopWidSet L ⊆ st.parsed then st
  else { eqs := st.eqs ++ [L], parsed := st.parsed ∪ loopWidSet L }

/-- Outer iteration: fold the loops of one effective seed wire. -/
def secondLawWireStep (c : Circuit) (st : SLState) (w : Wire) : SLState :=
  (loopsOf c w).foldl secondLawLoopStep st

/-- The whole loop of `Circuit.__second_law_wires` over the effective wires. -/
def secondLawFold (c : Circuit) (eff : List Wire) : SLState :=
  eff.foldl (secondLawWireStep c) ⟨[], ∅⟩

/-- Source `Circuit.__second_law_wires()` (the returned equations). -/
def secondLawWires (c : Circuit) (eff : List Wire) : List Loop :=
  (secondLawFold c eff).eqs

/-! ### The derivative function (`Circuit.__derivatives`): assembly of `R·x = V` -/

/-- Source `_charges`: group the flat state vector, one `(charge, current)` pair per
inductive wire and one `(charge,)` slot — padded with an unused `0` — per
non-inductive wire, in wire-list order. -/
def groupCharges : List Wire → List ℚ → List (ℚ × ℚ)
  | [], _ => []
  | w :: ws, cs =>
    if w.ind then (cs.getD 0 0, cs.getD 1 0) :: groupCharges ws (cs.drop 2)
    else (cs.getD 0 0, 0) :: groupCharges ws (cs.drop 1)

/-- Source `wires.index(wire)` (wires are identified by their id). -/
def wIdx (wires : List Wire) (w : Wire) : ℕ :=
  wires.findIdx (fun x => x.wid == w.wid)

/-- Assembly of one first-law row `(R_eq, V_eq)`: if every wire of the
equation is inductive the signed unit coefficients are placed in `R_eq`
(whose columns are then the current-derivative unknowns) with `V_eq = 0`;
otherwise non-inductive wires get signed unit coefficients (current
unknowns) and each inductive wire moves its known current — the second slot
of its `_charges` pair — to the right-hand side. -/
def firstLawRow (wires : List Wire) (ch : List (ℚ × ℚ)) (L : Loop) : List ℚ × ℚ :=
  let z := List.replicate wires.length (0 : ℚ)
  if L.all (fun p => p.1.ind) then
    (L.foldl (fun acc (p : SWire) => acc.set (wIdx wires p.1) p.2.toQ) z, 0)
  else
    L.foldl (fun (acc : List ℚ × ℚ) (p : SWire) =>
        if p.1.ind then
          (acc.1, acc.2 - p.2.toQ * (ch.getD (wIdx wires p.1) (0, 0)).2)
        else (acc.1.set (wIdx wires p.1) p.2.toQ, acc.2))
      (z, 0)

/-- Assembly of one second-law row `(R_eq, V_eq)`: an inductive wire
contributes `sign * inductance(t)` to its current-derivative column and
`sign * (emf + ac emf - capacitor drop - net resistance * current)` to the
right-hand side; a non-inductive wire contributes `sign * net_resistance(t)`
to its current column and `sign * (emf + ac emf - capacitor drop)` to the
right-hand side. -/
def secondLawRow (wires : List Wire) (ch : List (ℚ × ℚ)) (t : ℚ) (L : Loop) :
    List ℚ × ℚ :=
  L.foldl (fun (acc : List ℚ × ℚ) (p : SWire) =>
      let w := p.1
      let k := wIdx wires w
      if w.ind then
        (acc.1.set k (p.2.toQ * w.inductance t),
         acc.2 + p.2.toQ * (w.emf t + w.acEmf t - capDrop w t (ch.getD k (0, 0)).1
            - netResistance w t * (ch.getD k (0, 0)).2))
      else
        (acc.1.set k (p.2.toQ * netResistance w t),
         acc.2 + p.2.toQ * (w.emf t + w.acEmf t - capDrop w t (ch.getD k (0, 0)).1)))
    (List.replicate wires.length (0 : ℚ), 0)

/-- The full coefficient matrix `R` passed to `linalg.solve`: the first-law
rows followed by the second-law rows. -/
def assembleR (wires : List Wire) (ch : List (ℚ × ℚ)) (t : ℚ)
    (firstLaw secondLaw : List Loop) : List (List ℚ) :=
  firstLaw.map (fun L => (firstLawRow wires ch L).1)
    ++ secondLaw.map (fun L => (secondLawRow wires ch t L).1)

/-- Laplace expansion along the first row, with structural fuel so that the
determinant evaluates by kernel reduction. -/
def detAux : ℕ → List (List ℚ) → ℚ
  | 0, _ => 1
  | _, [] => 1
  | fuel + 1, r :: rs =>
    (r.enum.map (fun p =>
       (-1 : ℚ) ^ p.1 * p.2 * detAux fuel (rs.map (fun row => row.eraseIdx p.1)))).sum

/-- Determinant of a square rational matrix given as rows. -/
def detL (m : List (List ℚ)) : ℚ := detAux m.length m

/-! ### Event splitting and time grids (`Circuit.__split_events`, `Circuit.solve`) -/

/-- Insertion of one time into a sorted list (used to model Python
`sorted`, keeping every definition kernel-reducible). -/
def insortQ (x : ℚ) : List ℚ → List ℚ
  | [] => [x]
  | y :: ys => if x ≤ y then x :: y :: ys else y :: insortQ x ys

/-- Ascending sort of the event times, modelling Python `sorted`. -/
def sortQ (l : List ℚ) : List ℚ := l.foldr insortQ []

/-- The sub-intervals of `[0, end]` produced by `Circuit.__split_events`:
with no events the whole interval; otherwise one interval up to each sorted
event time `≤ end` plus a final interval ending at `end`.  Only the interval
endpoints are modelled; the attached callbacks do not matter for the grid. -/
def splitIntervals (eventTimes : List ℚ) (endT : ℚ) : List (ℚ × ℚ) :=
  if eventTimes = [] then [(0, endT)]
  else
    let times := sortQ (eventTimes.filter (fun t => t ≤ endT))
    (times.zip (0 :: times)).map (fun p => (p.2, p.1)) ++ [(times.getLastD 0, endT)]

/-- The per-interval sample count in `Circuit.solve`:
`steps = int(resolution * (_end - _start) / end)` — Python `int()` truncates
toward zero, which on these non-negative values is the floor. -/
def intervalSteps (resolution : ℕ) (endT : ℚ) (iv : ℚ × ℚ) : ℕ :=
  (⌊(resolution : ℚ) * (iv.2 - iv.1) / endT⌋).toNat

/-- The local time grid of one sub-interval:
`[_start + (_end - _start) * i / (steps - 1) for i in range(steps)]`. -/
def intervalGrid (resolution : ℕ) (endT : ℚ) (iv : ℚ × ℚ) : List ℚ :=
  (List.range (intervalSteps resolution endT iv)).map
    (fun i : ℕ =>
      iv.1 + (iv.2 - iv.1) * (i : ℚ) / ((intervalSteps resolution endT iv : ℚ) - 1))

/-- The sub-intervals of a `solve(end, resolution)` call paired with their
local time grids. -/
def solveGrids (eventTimes : List ℚ) (endT : ℚ) (resolution : ℕ) :
    List ((ℚ × ℚ) × List ℚ) :=
  (splitIntervals eventTimes endT).map (fun iv => (iv, intervalGrid resolution endT iv))

/-! ### Node-potential propagation
(`Circuit.__set_earth_potential`, `Circuit.__calculate_potentials`) -/

/-- Instantaneous potential drop along a wire as evaluated during potential
propagation: `emf + ac emf - dq_dt * net_resistance - capacitor drop`,
minus the inductor drop `inductance * d2q_dt2` when an inductor is present. -/
def potDrop (w : Wire) (t qv dqv d2v : ℚ) : ℚ :=
  w.emf t + w.acEmf t - dqv * netResistance w t - capDrop w t qv
    - (if w.ind then w.inductance t * d2v else 0)

/-- Append values to one junction's potential series. -/
def updatePot (pot : ℕ → List ℚ) (j : ℕ) (vals : List ℚ) : ℕ → List ℚ :=
  fun k => if k = j then pot k ++ vals else pot k

/-- The body of the wire loop of `Circuit.__calculate_potentials` at
`current_junction`: wires whose far junction is already `calculated` are
skipped; otherwise the far junction is marked calculated, one potential value
per sample of the time axis is appended to it (the current junction's value
plus the signed drop), and the wire is queued in `not_calc_wires`
(the third component). -/
def potPass (c : Circuit) (tAxis : List ℚ) (curJ : ℕ)
    (pot : ℕ → List ℚ) (calculated : List ℕ) :
    (ℕ → List ℚ) × List ℕ × List Wire :=
  (incidentWires c curJ).foldl
    (fun (st : (ℕ → List ℚ) × List ℕ × List Wire) w =>
      let nxt := otherJunction w curJ
      if nxt ∈ st.2.1 then st
      else
        let sgn : ℚ := if curJ = w.startJ then 1 else -1
        let vals := (List.range tAxis.length).map (fun i =>
          (st.1 curJ).getD i 0 + sgn * potDrop w (tAxis.getD i 0) (w.q.getD i 0)
            (w.dq_dt.getD i 0) (w.d2q_dt2.getD i 0))
        (updatePot st.1 nxt vals, st.2.1 ++ [nxt], st.2.2 ++ [w]))
    (pot, calculated, [])

/-- Source `Circuit.__calculate_potentials` with its recursion defunctionalized
into an explicit work stack: popping a junction runs the wire loop above and
then pushes the far junctions of its `not_calc_wires` on top of the stack,
which reproduces the source's depth-first recursion order exactly (the
sequential recursive calls thread the shared `calculated` list and the
junction potentials just like this fold does).  The fuel again only bounds
the always-finite number of visits. -/
def calcPotentials (c : Circuit) (tAxis : List ℚ) :
    ℕ → List ℕ → (ℕ → List ℚ) → List ℕ → (ℕ → List ℚ) × List ℕ
  | 0, _, pot, calculated => (pot, calculated)
  | _ + 1, [], pot, calculated => (pot, calculated)
  | fuel + 1, curJ :: stack, pot, calculated =>
    let st := potPass c tAxis curJ pot calculated
    calcPotentials c tAxis fuel
      (st.2.2.map (fun w => otherJunction w curJ) ++ stack) st.1 st.2.1

/-- Source `Circuit.__set_earth_potential` followed by
`Circuit.__calculate_potentials(self.earth, [])`, exactly as scheduled by
`Circuit.__split_events` for the final sub-interval of every `solve` call:
the earth junction (id `0`) gets the series `[0.0] * len(time)` and
propagation starts from it with an *empty* `calculated` list.  Junctions
other than earth start with the empty series. -/
def potentialPass (c : Circuit) (tAxis : List ℚ) : (ℕ → List ℚ) × List ℕ :=
  let pot0 : ℕ → List ℚ := fun j => if j = 0 then List.replicate tAxis.length 0 else []
  calcPotentials c tAxis (dfsFuel c + 1) [0] pot0 []

/-! ### Meter readings (`devices.py`) -/

/-- Source `Galvanometer.get_reading` (also `Ammeter = Galvanometer`):
`current if abs(current) < max_current else max_current`. -/
def galvReading (maxCurrent current : ℚ) : ℚ :=
  if |current| < maxCurrent then current else maxCurrent

/-- Source `Voltmeter.get_reading`: the measured voltage is
`potential_drop(t, current) = resistance(t) * current`, clipped the same
way against `max_voltage`. -/
def voltReading (resistance : ℚ → ℚ) (maxVoltage t current : ℚ) : ℚ :=
  let voltage := resistance t * current
  if |voltage| < maxVoltage then voltage else maxVoltage

/-! ### Wellformed circuits and concrete example networks -/

/-- Wellformedness of a built network: distinct wire ids (the embedding's
stand-in for Python object identity), no self-loop wires, and terminals
drawn from the junction list — exactly the configurations produced by using
`Circuit.connect` as intended. -/
def WF (c : Circuit) : Prop :=
  (c.wires.map Wire.wid).Nodup ∧
    ∀ w ∈ c.wires, w.startJ ≠ w.endJ ∧ w.startJ ∈ c.junctions ∧ w.endJ ∈ c.junctions

instance (c : Circuit) : Decidable (WF c) := by
  unfold WF; infer_instance

/-- Concrete wire template for the example networks: closed switch, unit
resistor, DC emf `5`, no AC source, no capacitor, unit inductance function,
ideal meters, empty series. -/
def mkWire (wid s e : ℕ) (ind : Bool) : Wire :=
  ⟨wid, s, e, true, ind, fun _ => 1, fun _ => 5, fun _ => 0, fun _ => 0,
   fun _ => 1, fun _ => 0, fun _ => 0, fun _ => 0, [], [], []⟩

/-- A wire whose switch has been opened. -/
def mkOpenWire (wid s e : ℕ) : Wire := { mkWire wid s e false with closed := false }

/-- A wire carrying one sample of solved series (for the potential pass):
`q = [0]`, `dq_dt = [1]`, `d2q_dt2 = [0]`. -/
def mkWireS (wid s e : ℕ) : Wire :=
  { mkWire wid s e false with q := [0], dq_dt := [1], d2q_dt2 := [0] }

/-- A 4-cycle whose branches alternate between non-inductive and inductive:
`w0 : 0-1` (RC), `w1 : 1-2` (LCR), `w2 : 2-3` (RC), `w3 : 3-0` (LCR). -/
def sqLNLN : Circuit :=
  ⟨[mkWire 0 0 1 false, mkWire 1 1 2 true, mkWire 2 2 3 false, mkWire 3 3 0 true],
   [0, 1, 2, 3]⟩

/-- The same 4-cycle with no inductors at all. -/
def sqPlain : Circuit :=
  ⟨[mkWire 0 0 1 false, mkWire 1 1 2 false, mkWire 2 2 3 false, mkWire 3 3 0 false],
   [0, 1, 2, 3]⟩

/-- The complete graph on the four junctions `0,1,2,3`, no inductors. -/
def K4 : Circuit :=
  ⟨[mkWire 0 0 1 false, mkWire 1 0 2 false, mkWire 2 0 3 false,
    mkWire 3 1 2 false, mkWire 4 1 3 false, mkWire 5 2 3 false],
   [0, 1, 2, 3]⟩

/-- A triangle through the earth junction `0`, with one solved sample on
every branch (the state in which the final-interval potential pass runs). -/
def triEarth : Circuit :=
  ⟨[mkWireS 10 0 1, mkWireS 11 0 2, mkWireS 12 1 2], [0, 1, 2]⟩

/-- Two parallel effective wires between junctions `0` and `1`, plus one
wire whose switch is open (a null wire). -/
def openPair : Circuit :=
  ⟨[mkWire 0 0 1 false, mkWire 1 0 1 false, mkOpenWire 2 0 1], [0, 1]⟩

/-- The null wire ids of a circuit, as passed by `solve` into
`__first_law_wires` after classification. -/
def nullWidsOf (c : Circuit) : List ℕ := (calculateEffectiveWires c).2.map Wire.wid

/-! ## Claim C9: loops of a null seed -/

/-- C9: `Circuit.__get_loops` raises `CircuitError` on every null seed wire,
before any search is performed — the embedding returns the error value
directly, with no `loopsAux` call. -/
theorem C9_null_seed_error (c : Circuit) (w : Wire) (h : isNull c w = true) :
    getLoops c w = Except.error "main_wire is null" := by
  simp [getLoops, h]

/-- Witness for C9: the open-switch wire of `openPair` is null and its loop
request errors out. -/
theorem C9_witness :
    isNull openPair (mkOpenWire 2 0 1) = true
      ∧ getLoops openPair (mkOpenWire 2 0 1) = Except.error "main_wire is null" :=
  ⟨by decide, C9_null_seed_error openPair (mkOpenWire 2 0 1) (by decide)⟩

/-! ## Claim C10: meter readings -/

/-- C10: a galvanometer/ammeter reads the current while its magnitude is
below `max_current` and the positive constant `max_current` otherwise (so a
large negative current reads `+max_current`), a zero `max_current` pins the
reading to `0`, and the voltmeter clips the measured voltage
`resistance(t) * current` against `max_voltage` the same way. -/
theorem C10_meter_readings :
    (∀ mc i : ℚ, (|i| < mc → galvReading mc i = i) ∧ (¬|i| < mc → galvReading mc i = mc))
    ∧ (∀ i : ℚ, i ≤ -2 → galvReading 1 i = 1)
    ∧ (∀ i : ℚ, galvReading 0 i = 0)
    ∧ (∀ (r : ℚ → ℚ) (mv t i : ℚ),
        (|r t * i| < mv → voltReading r mv t i = r t * i)
        ∧ (¬|r t * i| < mv → voltReading r mv t i = mv)) := by
  refine ⟨fun mc i => ⟨fun h => ?_, fun h => ?_⟩, fun i h => ?_, fun i => ?_,
    fun r mv t i => ⟨fun h => ?_, fun h => ?_⟩⟩
  · simp [galvReading, h]
  · simp [galvReading, h]
  · have h2 : ¬|i| < 1 := by
      rw [abs_of_nonpos (by linarith)]; linarith
    simp [galvReading, h2]
  · have h0 : ¬|i| < 0 := not_lt.mpr (abs_nonneg i)
    simp [galvReading, h0]
  · simp only [voltReading]; rw [if_pos h]
  · simp only [voltReading]; rw [if_neg h]

/-- Witness for C10 at concrete inputs. -/
theorem C10_witness :
    galvReading 10 (-5) = -5 ∧ galvReading 1 (-100) = 1 ∧ galvReading 0 7 = 0
      ∧ voltReading (fun _ => 2) 7 0 3 = (2 : ℚ) * 3 :=
  ⟨(C10_meter_readings.1 10 (-5)).1 (by norm_num),
   C10_meter_readings.2.1 (-100) (by norm_num),
   C10_meter_readings.2.2.1 7,
   (C10_meter_readings.2.2.2 (fun _ => 2) 7 0 3).1 (by norm_num)⟩

/-- Helper: the concrete event split used for C5. -/
lemma splitIntervals_ex :
    splitIntervals [27/100] 1 = [(0, 27/100), (27/100, 1)] := by
  norm_num [splitIntervals, sortQ, insortQ]

/-- Helper: the first interval's sample count truncates `2.7` to `2`. -/
lemma intervalSteps_ex1 : intervalSteps 10 1 (0, 27/100) = 2 := by
  norm_num [intervalSteps]
  rfl

/-- Helper: the second interval's sample count truncates `7.3` to `7`. -/
lemma intervalSteps_ex2 : intervalSteps 10 1 (27/100, 1) = 7 := by
  norm_num [intervalSteps]
  rfl

/-! ## Claim C4: the first-law dedup heuristic -/

/-- All symmetric-difference combinations — the GF(2) span — of a list of
wire-id sets, as a list (the empty combination `∅` included). -/
def allXors : List (Finset ℕ) → List (Finset ℕ)
  | [] => [∅]
  | s :: rest => allXors rest ++ (allXors rest).map (fun t => symmDiff t s)

lemma empty_mem_allXors (l : List (Finset ℕ)) : ∅ ∈ allXors l := by
  induction l with
  | nil => simp [allXors]
  | cons s rest ih => simp only [allXors, List.mem_append]; exact Or.inl ih

/-- Invariant of the first-law fold: `possible_wire_combos` holds exactly
the symmetric-difference combinations of the accepted candidate sets
(and is empty before the first acceptance). -/
def FLInv (st : FLState) : Prop :=
  ∀ S : Finset ℕ, S ∈ st.combos ↔ (st.accepted ≠ [] ∧ S ∈ allXors st.accepted)

lemma symmDiff_empty_left (a : Finset ℕ) : symmDiff (∅ : Finset ℕ) a = a := by
  simp [symmDiff]

lemma symmDiff_self_empty (a : Finset ℕ) : symmDiff a a = (∅ : Finset ℕ) := by
  simp [symmDiff]

lemma flInv_step (c : Circuit) (nW : List ℕ) (st : FLState) (j : ℕ) (h : FLInv st) :
    FLInv (firstLawStep c nW st j) := by
  unfold firstLawStep
  by_cases h01 : (junctionWires c nW j).length = 0 ∨ (junctionWires c nW j).length = 1
  · rw [if_pos h01]; exact h
  · rw [if_neg h01]
    by_cases hmem : flCandSet (junctionWires c nW j) ∈ st.combos
    · rw [if_pos hmem]; exact h
    · rw [if_neg hmem]
      intro S
      simp only [List.mem_append, List.mem_map, List.mem_singleton, allXors,
        List.cons_ne_nil, ne_eq, not_false_eq_true, true_and]
      constructor
      · rintro ((hC | rfl) | ⟨T, (hTC | rfl), rfl⟩)
        · exact Or.inl ((h S).mp hC).2
        · exact Or.inr ⟨∅, empty_mem_allXors _, symmDiff_empty_left _⟩
        · exact Or.inr ⟨T, ((h T).mp hTC).2, rfl⟩
        · rw [symmDiff_self_empty]
          exact Or.inl (empty_mem_allXors _)
      · rintro (hS | ⟨T, hT, rfl⟩)
        · by_cases hA : st.accepted = []
          · rw [hA] at hS
            simp only [allXors, List.mem_singleton] at hS
            subst hS
            exact Or.inr ⟨flCandSet (junctionWires c nW j), Or.inr rfl,
              symmDiff_self_empty _⟩
          · exact Or.inl (Or.inl ((h S).mpr ⟨hA, hS⟩))
        · by_cases hA : st.accepted = []
          · rw [hA] at hT
            simp only [allXors, List.mem_singleton] at hT
            subst hT
            exact Or.inl (Or.inr (symmDiff_empty_left _))
          · exact Or.inr ⟨T, Or.inl ((h T).mpr ⟨hA, hT⟩), rfl⟩

lemma flInv_foldAux (c : Circuit) (nW : List ℕ) :
    ∀ (js : List ℕ) (st : FLState), FLInv st → FLInv (js.foldl (firstLawStep c nW) st)
  | [], _, h => h
  | j :: rest, st, h => flInv_foldAux c nW rest _ (flInv_step c nW st j h)

lemma flInv_fold (c : Circuit) (nW : List ℕ) (js : List ℕ) :
    FLInv (firstLawFold c nW js) := by
  refine flInv_foldAux c nW js _ ?_
  intro S
  simp [FLInv]

lemma flCandidate_ne_nil (jw : List Wire) (h2 : 2 ≤ jw.length) : flCandidate jw ≠ [] := by
  have hne : jw ≠ [] := by
    intro h; rw [h] at h2; simp at h2
  unfold flCandidate
  by_cases hall : jw.all (fun w => w.ind)
  · rw [if_pos hall]; exact hne
  · rw [if_neg hall]
    rw [List.all_eq_true] at hall
    push_neg at hall
    obtain ⟨w, hw, hwind⟩ := hall
    have : w ∈ jw.filter (fun w => !w.ind) := by
      rw [List.mem_filter]
      exact ⟨hw, by simp [Bool.not_eq_true] at hwind ⊢; exact hwind⟩
    exact List.ne_nil_of_mem this

lemma flCandSet_ne_empty (jw : List Wire) (h2 : 2 ≤ jw.length) : flCandSet jw ≠ ∅ := by
  obtain ⟨w, ws, heq⟩ := List.exists_cons_of_ne_nil (flCandidate_ne_nil jw h2)
  apply Finset.ne_empty_of_mem (a := w.wid)
  rw [flCandSet, List.mem_toFinset, heq]
  exact List.mem_map_of_mem _ (by simp)

/-- C4 amended: when the junction loop of `__first_law_wires` reaches a
junction `j` of effective degree `≥ 2`, the candidate set is skipped if and
only if it lies in the set of *all* symmetric-difference combinations
(the GF(2) span) of the previously accepted candidate sets — not merely
when it equals one previously accepted set or a symmetric difference of two
of them; otherwise the junction's signed equation (`PLUS` on wires starting
at the junction, `MINUS` otherwise) is appended. -/
theorem C4_selection_iff_span (c : Circuit) (nullWids : List ℕ) (js : List ℕ) (j : ℕ)
    (h2 : 2 ≤ (junctionWires c nullWids j).length) :
    (firstLawFold c nullWids (js ++ [j])).eqs
      = (firstLawFold c nullWids js).eqs
        ++ (if flCandSet (junctionWires c nullWids j)
                ∈ allXors (firstLawFold c nullWids js).accepted then []
            else [(junctionWires c nullWids j).map
                (fun w => (w, if j = w.startJ then Sign.PLUS else Sign.MINUS))]) := by
  have hstep : firstLawFold c nullWids (js ++ [j])
      = firstLawStep c nullWids (firstLawFold c nullWids js) j := by
    rw [firstLawFold, firstLawFold, List.foldl_append, List.foldl_cons, List.foldl_nil]
  rw [hstep]
  set st := firstLawFold c nullWids js with hst
  have hinv : FLInv st := flInv_fold c nullWids js
  have h01 : ¬((junctionWires c nullWids j).length = 0
      ∨ (junctionWires c nullWids j).length = 1) := by omega
  unfold firstLawStep
  rw [if_neg h01]
  by_cases hmem : flCandSet (junctionWires c nullWids j) ∈ st.combos
  · have hx := (hinv _).mp hmem
    rw [if_pos hmem, if_pos hx.2, List.append_nil]
  · have hx : flCandSet (junctionWires c nullWids j) ∉ allXors st.accepted := by
      intro hIn
      by_cases hA : st.accepted = []
      · rw [hA] at hIn
        simp only [allXors, List.mem_singleton] at hIn
        exact flCandSet_ne_empty _ h2 hIn
      · exact hmem ((hinv _).mpr ⟨hA, hIn⟩)
    rw [if_neg hmem, if_neg hx]
    rfl

/-- The accepted first-law candidate sets of the `K4` network, most recent
first. -/
def K4acc : List (Finset ℕ) := (firstLawFold K4 (nullWidsOf K4) K4.junctions).accepted

/-- Counterexample to C4 as stated: in `K4` the candidate of junction `3`
(wire ids `{2, 4, 5}`, effective degree `3 ≥ 2`) is skipped — only three
equations are accepted — although it equals no previously accepted
candidate set and no symmetric difference of *two* previously accepted
sets: it is the three-fold combination
`{0,1,2} ∆ {0,3,4} ∆ {1,3,5}`.  So the claim's skip rule is too weak; the
code skips against the full span. -/
theorem C4_counterexample :
    (firstLawWires K4 (nullWidsOf K4)).length = 3
      ∧ (junctionWires K4 (nullWidsOf K4) 3).length = 3
      ∧ K4acc = [{1, 3, 5}, {0, 3, 4}, {0, 1, 2}]
      ∧ flCandSet (junctionWires K4 (nullWidsOf K4) 3) = {2, 4, 5}
      ∧ ({2, 4, 5} : Finset ℕ) ∉ K4acc
      ∧ ({2, 4, 5} : Finset ℕ)
          ∉ K4acc.flatMap (fun a => K4acc.map (fun b => symmDiff a b)) := by decide

/-- Witness for C4: the span rule applied to `K4`'s fourth junction. -/
theorem C4_witness :
    2 ≤ (junctionWires K4 (nullWidsOf K4) 3).length
      ∧ (firstLawFold K4 (nullWidsOf K4) ([0, 1, 2] ++ [3])).eqs
        = (firstLawFold K4 (nullWidsOf K4) [0, 1, 2]).eqs
          ++ (if flCandSet (junctionWires K4 (nullWidsOf K4) 3)
                  ∈ allXors (firstLawFold K4 (nullWidsOf K4) [0, 1, 2]).accepted then []
              else [(junctionWires K4 (nullWidsOf K4) 3).map
                  (fun w => (w, if 3 = w.startJ then Sign.PLUS else Sign.MINUS))]) :=
  ⟨by decide, C4_selection_iff_span K4 (nullWidsOf K4) [0, 1, 2] 3 (by decide)⟩

/-! ## Claim C5: per-interval sample counts -/

/-- Counterexample to C5 as stated: with `end_time = 1`, `resolution = 10`
and a single event at `0.27`, the first sub-interval's grid has
`int(10 * 0.27) = 2` samples, not the rounded `3` the claim asks for (and
the total `2 + 7 = 9` falls short of the budget `10`). -/
theorem C5_counterexample :
    (solveGrids [27/100] 1 10).map (fun p => p.2.length) = [2, 7]
      ∧ round ((10 : ℚ) * ((27/100 : ℚ) - 0) / 1) = 3
      ∧ (2 : ℕ) ≠ 3 := by
  refine ⟨?_, ?_, by norm_num⟩
  · rw [solveGrids, splitIntervals_ex]
    simp [intervalGrid, intervalSteps_ex1, intervalSteps_ex2]
  · rw [round_eq]; norm_num

/-- C5 amended: every sub-interval's local grid has
`⌊resolution * (interval length) / end_time⌋` samples — the share of the
budget truncated toward zero (Python `int`), not rounded. -/
theorem C5_truncated_steps (eventTimes : List ℚ) (endT : ℚ) (resolution : ℕ)
    (iv : ℚ × ℚ) (g : List ℚ)
    (h : (iv, g) ∈ solveGrids eventTimes endT resolution) :
    g.length = (⌊(resolution : ℚ) * (iv.2 - iv.1) / endT⌋).toNat := by
  rcases List.mem_map.mp h with ⟨iv0, _, heq⟩
  cases heq
  simp only [intervalGrid, List.length_map, List.length_range, intervalSteps]

/-! ## Claim C2: equation counts versus unknowns -/

/-- Counterexample to C2 as stated: on the alternating inductive square
`sqLNLN` (a perfectly ordinary topology, all four branches effective) the
engine accepts `2` first-law and `1` second-law equations for `4` unknowns
— the mixed-node candidate sets at junctions `1` and `3` collide with those
of junctions `0` and `2`, so two genuinely independent current-conservation
equations are dropped and the assembled system cannot be square.  The
junction iteration order does not matter: only the two candidate sets
`{0}` and `{2}` ever arise. -/
theorem C2_counterexample :
    (firstLawWires sqLNLN (nullWidsOf sqLNLN)).length
        + (secondLawWires sqLNLN (calculateEffectiveWires sqLNLN).1).length = 3
      ∧ ((calculateEffectiveWires sqLNLN).1).length = 4
      ∧ (3 : ℕ) ≠ 4 := by decide

/-- The effective wires of the inductor-free square. -/
def sqPlainEff : List Wire := (calculateEffectiveWires sqPlain).1

/-- Helper: the classification of the inductor-free square keeps all four
wires, in wire order. -/
lemma sqPlainEff_eq : sqPlainEff =
    [mkWire 0 0 1 false, mkWire 1 1 2 false, mkWire 2 2 3 false,
     mkWire 3 3 0 false] := rfl

/-- Helper: the three accepted first-law equations of the inductor-free
square (junction `3` is skipped, its candidate being the symmetric
difference of the three accepted ones). -/
lemma sqPlain_firstLaw : firstLawWires sqPlain (nullWidsOf sqPlain) =
    [[(mkWire 0 0 1 false, Sign.PLUS), (mkWire 3 3 0 false, Sign.MINUS)],
     [(mkWire 0 0 1 false, Sign.MINUS), (mkWire 1 1 2 false, Sign.PLUS)],
     [(mkWire 1 1 2 false, Sign.MINUS), (mkWire 2 2 3 false, Sign.PLUS)]] := rfl

/-- Helper: the single accepted second-law equation of the inductor-free
square — the full cycle. -/
lemma sqPlain_secondLaw : secondLawWires sqPlain sqPlainEff =
    [[(mkWire 0 0 1 false, Sign.PLUS), (mkWire 1 1 2 false, Sign.PLUS),
      (mkWire 2 2 3 false, Sign.PLUS), (mkWire 3 3 0 false, Sign.PLUS)]] := rfl

/-- The coefficient matrix the derivative function assembles for the
inductor-free square (time `0`, zero initial state). -/
def sqPlainR : List (List ℚ) :=
  assembleR sqPlainEff (groupCharges sqPlainEff [0, 0, 0, 0]) 0
    (firstLawWires sqPlain (nullWidsOf sqPlain))
    (secondLawWires sqPlain sqPlainEff)

/-- Helper: that matrix, concretely. -/
lemma sqPlainR_eq : sqPlainR =
    [[1, 0, 0, -1], [-1, 1, 0, 0], [0, -1, 1, 0], [1, 1, 1, 1]] := by
  rw [sqPlainR, sqPlain_firstLaw, sqPlain_secondLaw, sqPlainEff_eq]
  simp [assembleR, firstLawRow, secondLawRow, wIdx, mkWire, List.findIdx,
    List.findIdx.go, netResistance, capDrop, Sign.toQ, groupCharges]

/-- Helper: its determinant. -/
lemma sqPlainR_det :
    detL [([1, 0, 0, -1] : List ℚ), [-1, 1, 0, 0], [0, -1, 1, 0], [1, 1, 1, 1]]
      = 4 := by
  simp [detL, detAux, List.enum, List.enumFrom]
  norm_num

/-- C2 amended: the count/squareness/non-singularity property is not true
of every topology (see `C2_counterexample`), but it does hold for
inductor-free cycles, here the 4-cycle: `3 + 1` equations for `4` unknowns,
each assembled row of width `4`, and a non-singular `R`. -/
theorem C2_square_for_plain_cycle :
    (firstLawWires sqPlain (nullWidsOf sqPlain)).length
        + (secondLawWires sqPlain sqPlainEff).length = sqPlainEff.length
      ∧ sqPlainR.length = sqPlainEff.length
      ∧ sqPlainR.map List.length = [4, 4, 4, 4]
      ∧ detL sqPlainR ≠ 0 := by
  refine ⟨by decide, by decide, by decide, ?_⟩
  rw [sqPlainR_eq, sqPlainR_det]
  norm_num

/-- Witness for C5: the amended statement at the concrete split. -/
theorem C5_witness :
    ((((0 : ℚ), (27/100 : ℚ)), intervalGrid 10 1 (0, 27/100))
        ∈ solveGrids [27/100] 1 10)
      ∧ (intervalGrid 10 1 (0, 27/100)).length
          = (⌊(10 : ℚ) * ((27/100 : ℚ) - 0) / 1⌋).toNat :=
  ⟨by rw [solveGrids, splitIntervals_ex]; exact List.mem_map_of_mem _ (by simp),
   C5_truncated_steps [27/100] 1 10 (0, 27/100) _
     (by rw [solveGrids, splitIntervals_ex]; exact List.mem_map_of_mem _ (by simp))⟩

/-! ## Claims C3 and C7: the assembled rows of `R·x = V`

Shared fold-characterization lemmas: the row builders of
`Circuit.__derivatives` write signed coefficients into columns indexed by
`wires.index(wire)` while accumulating the right-hand side; the lemmas
below read one column out of such a fold and split off the accumulated
scalar. -/

lemma getD_set_self {l : List ℚ} {i : ℕ} (h : i < l.length) (a : ℚ) :
    (l.set i a).getD i 0 = a := by
  rw [List.getD_eq_getElem?_getD, List.getElem?_set_eq_of_lt a h]
  rfl

lemma getD_set_other {l : List ℚ} {i j : ℕ} (h : i ≠ j) (a : ℚ) :
    (l.set i a).getD j 0 = l.getD j 0 := by
  rw [List.getD_eq_getElem?_getD, List.getElem?_set_ne h,
    ← List.getD_eq_getElem?_getD]

/-- Characterization of a fold that writes `f p` into column `key p` for
each element: with distinct in-range keys, column `j` holds `f p` when some
`p` has `key p = j` and the initial value otherwise. -/
lemma foldl_set_getD {α : Type} (key : α → ℕ) (f : α → ℚ) :
    ∀ (L : List α) (init : List ℚ) (j : ℕ),
      (L.map key).Nodup →
      (∀ p ∈ L, key p < init.length) →
      (L.foldl (fun acc p => acc.set (key p) (f p)) init).getD j 0
        = (match L.find? (fun p => key p == j) with
           | some p => f p
           | none => init.getD j 0)
  | [], init, j, _, _ => rfl
  | p :: rest, init, j, hnd, hlt => by
    rw [List.map_cons, List.nodup_cons] at hnd
    rw [List.foldl_cons]
    have ih := foldl_set_getD key f rest (init.set (key p) (f p)) j hnd.2
      (fun x hx => by rw [List.length_set]; exact hlt x (List.mem_cons_of_mem _ hx))
    by_cases hj : key p = j
    · have hfind : (p :: rest).find? (fun p => key p == j) = some p := by
        rw [List.find?_cons_of_pos]
        simpa using hj
      have hrestfind : rest.find? (fun p => key p == j) = none := by
        rw [List.find?_eq_none]
        intro x hx
        simp only [beq_iff_eq]
        intro hkx
        exact hnd.1 (hj ▸ hkx ▸ List.mem_map_of_mem key hx)
      rw [ih, hfind, hrestfind]
      show (init.set (key p) (f p)).getD j 0 = f p
      rw [← hj]
      exact getD_set_self (hlt p (by simp)) (f p)
    · have hfind : (p :: rest).find? (fun p => key p == j)
          = rest.find? (fun p => key p == j) := by
        rw [List.find?_cons_of_neg]
        simpa using hj
      rw [ih, hfind]
      cases hf : rest.find? (fun p => key p == j) with
      | some x => rfl
      | none =>
          show (init.set (key p) (f p)).getD j 0 = init.getD j 0
          exact getD_set_other hj (f p)

/-- Splitting a pair fold whose second component just accumulates a sum. -/
lemma foldl_split {α : Type} (u : List ℚ → α → List ℚ) (g : α → ℚ) :
    ∀ (L : List α) (v : List ℚ) (s : ℚ),
      L.foldl (fun acc p => (u acc.1 p, acc.2 + g p)) (v, s)
        = (L.foldl u v, s + (L.map g).sum)
  | [], v, s => by simp
  | p :: rest, v, s => by
    rw [List.foldl_cons, foldl_split u g rest]
    simp [add_assoc]

lemma neg_sum_map {α : Type} (h : α → ℚ) :
    ∀ L : List α, (L.map (fun p => -h p)).sum = -(L.map h).sum
  | [] => by simp
  | p :: rest => by
    rw [List.map_cons, List.map_cons, List.sum_cons, List.sum_cons,
      neg_sum_map h rest]
    ring

/-- C7: each second-law row is built by walking the loop — an inductive
branch contributes `sign × inductance(t)` to its current-derivative column
and `sign × (emf + ac emf − capacitor drop − net_resistance(t) × current)`
to the right-hand side; a non-inductive branch contributes
`sign × net_resistance(t)` to its current column and
`sign × (emf + ac emf − capacitor drop)` to the right-hand side; columns of
wires not on the loop stay `0`; and `net_resistance` is the resistor plus
the galvanometer, ammeter and voltmeter internal resistances. -/
theorem C7_second_law_rows (wires : List Wire) (ch : List (ℚ × ℚ)) (t : ℚ) (L : Loop)
    (hnd : (L.map (fun p => wIdx wires p.1)).Nodup)
    (hlt : ∀ p ∈ L, wIdx wires p.1 < wires.length) :
    (∀ (w : Wire) (s : ℚ),
        netResistance w s = w.resistorR s + w.galvR s + w.ammR s + w.voltR s)
    ∧ (secondLawRow wires ch t L).2
        = (L.map (fun p => p.2.toQ * (p.1.emf t + p.1.acEmf t
            - capDrop p.1 t (ch.getD (wIdx wires p.1) (0, 0)).1
            - (if p.1.ind then
                 netResistance p.1 t * (ch.getD (wIdx wires p.1) (0, 0)).2
               else 0)))).sum
    ∧ ∀ j : ℕ,
        (secondLawRow wires ch t L).1.getD j 0
          = (match L.find? (fun p => wIdx wires p.1 == j) with
             | some p => p.2.toQ * (if p.1.ind then p.1.inductance t
                 else netResistance p.1 t)
             | none => 0) := by
  have hsplit : secondLawRow wires ch t L
      = (L.foldl (fun v p => v.set (wIdx wires p.1)
            (p.2.toQ * (if p.1.ind then p.1.inductance t else netResistance p.1 t)))
          (List.replicate wires.length 0),
         0 + (L.map (fun p => p.2.toQ * (p.1.emf t + p.1.acEmf t
            - capDrop p.1 t (ch.getD (wIdx wires p.1) (0, 0)).1
            - (if p.1.ind then
                 netResistance p.1 t * (ch.getD (wIdx wires p.1) (0, 0)).2
               else 0)))).sum) := by
    rw [secondLawRow, ← foldl_split]
    apply List.foldl_ext
    intro acc p hp
    by_cases hind : p.1.ind
    · simp [hind]
    · simp [hind]
  refine ⟨fun w s => rfl, ?_, ?_⟩
  · rw [hsplit]; simp
  · intro j
    rw [hsplit]
    simp only
    rw [foldl_set_getD (fun p => wIdx wires p.1)
      (fun p => p.2.toQ * (if p.1.ind then p.1.inductance t else netResistance p.1 t))
      L (List.replicate wires.length 0) j hnd
      (fun p hp => by rw [List.length_replicate]; exact hlt p hp)]
    cases hf : L.find? (fun p => wIdx wires p.1 == j) with
    | some x => rfl
    | none => simp

lemma foldl_cond_set_filter (key : SWire → ℕ) (f : SWire → ℚ) :
    ∀ (L : List SWire) (init : List ℚ),
      L.foldl (fun v p => if p.1.ind then v else v.set (key p) (f p)) init
        = (L.filter (fun p => !p.1.ind)).foldl (fun v p => v.set (key p) (f p)) init
  | [], _ => rfl
  | p :: rest, init => by
    by_cases hind : p.1.ind
    · rw [List.foldl_cons, if_pos hind, List.filter_cons_of_neg (by simp [hind]),
        foldl_cond_set_filter key f rest]
    · rw [List.foldl_cons, if_neg hind, List.filter_cons_of_pos (by simp [hind]),
        List.foldl_cons, foldl_cond_set_filter key f rest]

/-- C3 amended: a first-law row whose equation is all-inductive places the
signed unit coefficients on the current-derivative columns of its wires —
these are *unknowns* of the linear system, solved by `linalg.solve`, not
quantities known from the state — with right-hand side `0`; in the mixed
case the unknown-current columns of the non-inductive wires get signed unit
coefficients and the right-hand side is *minus* the signed sum of the
inductive branches' known currents (the second slot of their state pair,
i.e. `dq/dt`), not of their current-derivatives. -/
theorem C3_first_law_rows (wires : List Wire) (ch : List (ℚ × ℚ)) (L : Loop)
    (hnd : (L.map (fun p => wIdx wires p.1)).Nodup)
    (hlt : ∀ p ∈ L, wIdx wires p.1 < wires.length) :
    (L.all (fun p => p.1.ind) = true →
      (firstLawRow wires ch L).2 = 0
      ∧ ∀ j : ℕ, (firstLawRow wires ch L).1.getD j 0
          = (match L.find? (fun p => wIdx wires p.1 == j) with
             | some p => p.2.toQ
             | none => 0))
    ∧ (L.all (fun p => p.1.ind) = false →
      (firstLawRow wires ch L).2
        = -((L.map (fun p => if p.1.ind then
              p.2.toQ * (ch.getD (wIdx wires p.1) (0, 0)).2 else 0)).sum)
      ∧ ∀ j : ℕ, (firstLawRow wires ch L).1.getD j 0
          = (match (L.filter (fun p => !p.1.ind)).find?
                (fun p => wIdx wires p.1 == j) with
             | some p => p.2.toQ
             | none => 0)) := by
  constructor
  · intro hall
    rw [firstLawRow, if_pos hall]
    refine ⟨rfl, fun j => ?_⟩
    simp only
    rw [foldl_set_getD (fun p => wIdx wires p.1) (fun p => p.2.toQ) L
      (List.replicate wires.length 0) j hnd
      (fun p hp => by rw [List.length_replicate]; exact hlt p hp)]
    cases hf : L.find? (fun p => wIdx wires p.1 == j) with
    | some x => rfl
    | none => simp
  · intro hall
    have hall' : ¬(L.all (fun p => p.1.ind) = true) := by rw [hall]; simp
    rw [firstLawRow, if_neg hall']
    have hsplit : (L.foldl (fun (acc : List ℚ × ℚ) (p : SWire) =>
        if p.1.ind then
          (acc.1, acc.2 - p.2.toQ * (ch.getD (wIdx wires p.1) (0, 0)).2)
        else (acc.1.set (wIdx wires p.1) p.2.toQ, acc.2))
        (List.replicate wires.length 0, 0))
        = (L.foldl (fun v p => if p.1.ind then v else v.set (wIdx wires p.1) p.2.toQ)
            (List.replicate wires.length 0),
           0 + (L.map (fun p => if p.1.ind then
              -(p.2.toQ * (ch.getD (wIdx wires p.1) (0, 0)).2) else 0)).sum) := by
      rw [← foldl_split]
      apply List.foldl_ext
      intro acc p hp
      by_cases hind : p.1.ind
      · simp [hind, sub_eq_add_neg]
      · simp [hind]
    rw [hsplit]
    constructor
    · simp only [zero_add]
      rw [show (fun (p : SWire) => if p.1.ind then
            -(p.2.toQ * (ch.getD (wIdx wires p.1) (0, 0)).2) else 0)
          = (fun (p : SWire) => -(if p.1.ind then
            p.2.toQ * (ch.getD (wIdx wires p.1) (0, 0)).2 else 0)) from ?_]
      · exact neg_sum_map _ L
      · funext p
        by_cases hind : p.1.ind <;> simp [hind]
    · intro j
      simp only
      rw [foldl_cond_set_filter, foldl_set_getD (fun p => wIdx wires p.1)
        (fun p => p.2.toQ) _ (List.replicate wires.length 0) j
        (hnd.sublist (List.Sublist.map _ (List.filter_sublist L)))
        (fun p hp => by
          rw [List.length_replicate]
          exact hlt p (List.mem_of_mem_filter hp))]
      cases hf : (L.filter (fun p => !p.1.ind)).find?
          (fun p => wIdx wires p.1 == j) with
      | some x => rfl
      | none => simp

/-- An inductive wire `0 → 1`. -/
def wLa : Wire := mkWire 0 0 1 true

/-- An inductive wire `1 → 0`. -/
def wLb : Wire := mkWire 1 1 0 true

/-- The all-inductive first-law equation used against C3. -/
def C3loop : Loop := [(wLa, Sign.PLUS), (wLb, Sign.PLUS)]

/-- Counterexample to C3 as stated: the claim says an all-inductive
first-law row "equates the signed sum of their (known) current-derivatives
to zero", the current-derivatives being "already known from the state, not
unknowns" — i.e. the row would not constrain the solved vector at all.  In
fact the assembled row has coefficient vector `[1, 1]` on the two
current-derivative *columns of the unknown vector* (not the zero vector a
knowns-only identity would have), with right-hand side `0`: the row is a
genuine equation `x₀ + x₁ = 0` on the solved current-derivatives. -/
theorem C3_counterexample :
    C3loop.all (fun p => p.1.ind) = true
      ∧ (firstLawRow [wLa, wLb] [(1, 2), (3, 4)] C3loop).1 = [1, 1]
      ∧ ([(1 : ℚ), 1] ≠ List.replicate 2 (0 : ℚ))
      ∧ (firstLawRow [wLa, wLb] [(1, 2), (3, 4)] C3loop).2 = 0 := by
  refine ⟨by decide, rfl, ?_, rfl⟩
  simp

/-- An inductive wire `0 → 1` (mixed example). -/
def wMixL : Wire := mkWire 0 0 1 true

/-- A non-inductive wire `1 → 0` (mixed example). -/
def wMixR : Wire := mkWire 1 1 0 false

/-- A mixed first-law equation: one inductive, one non-inductive wire. -/
def C3mixLoop : Loop := [(wMixL, Sign.PLUS), (wMixR, Sign.MINUS)]

/-- Witness for C3: the amended characterization applied to the mixed
equation with state `[(1, 17), (3, 0)]` — the inductive branch's *current*
`17` is what moves to the right-hand side. -/
theorem C3_witness :
    ((C3mixLoop.map (fun p => wIdx [wMixL, wMixR] p.1)).Nodup
      ∧ ∀ p ∈ C3mixLoop, wIdx [wMixL, wMixR] p.1 < [wMixL, wMixR].length)
      ∧ (C3mixLoop.all (fun p => p.1.ind) = false →
          (firstLawRow [wMixL, wMixR] [(1, 17), (3, 0)] C3mixLoop).2
            = -((C3mixLoop.map (fun p => if p.1.ind then
                p.2.toQ * (([((1 : ℚ), (17 : ℚ)), (3, 0)]).getD
                  (wIdx [wMixL, wMixR] p.1) (0, 0)).2 else 0)).sum)
          ∧ ∀ j : ℕ, (firstLawRow [wMixL, wMixR] [(1, 17), (3, 0)] C3mixLoop).1.getD j 0
              = (match (C3mixLoop.filter (fun p => !p.1.ind)).find?
                    (fun p => wIdx [wMixL, wMixR] p.1 == j) with
                 | some p => p.2.toQ
                 | none => 0)) :=
  ⟨⟨by decide, by decide⟩,
   (C3_first_law_rows [wMixL, wMixR] [(1, 17), (3, 0)] C3mixLoop
     (by decide) (by decide)).2⟩

/-- Witness for C7: the second-law right-hand side at the same mixed loop
and state. -/
theorem C7_witness :
    (C3mixLoop.map (fun p => wIdx [wMixL, wMixR] p.1)).Nodup
      ∧ (secondLawRow [wMixL, wMixR] [(1, 17), (3, 0)] 0 C3mixLoop).2
        = (C3mixLoop.map (fun p => p.2.toQ * (p.1.emf 0 + p.1.acEmf 0
            - capDrop p.1 0 (([((1 : ℚ), (17 : ℚ)), (3, 0)]).getD
                (wIdx [wMixL, wMixR] p.1) (0, 0)).1
            - (if p.1.ind then
                 netResistance p.1 0 * (([((1 : ℚ), (17 : ℚ)), (3, 0)]).getD
                   (wIdx [wMixL, wMixR] p.1) (0, 0)).2
               else 0)))).sum :=
  ⟨by decide,
   (C7_second_law_rows [wMixL, wMixR] [(1, 17), (3, 0)] 0 C3mixLoop
     (by decide) (by decide)).2.1⟩


/-! ## Claim C6: second-law selection and coverage -/

/-- Union of the wire-id sets of a list of accepted equations. -/
def unionWids (eqs : List Loop) : Finset ℕ :=
  eqs.foldl (fun s L => s ∪ loopWidSet L) ∅

lemma slLoopStep_eqs (st : SLState) (L : Loop) :
    (secondLawLoopStep st L).eqs
      = st.eqs ++ (if loopWidSet L ⊆ st.parsed then [] else [L]) := by
  unfold secondLawLoopStep
  by_cases h : loopWidSet L ⊆ st.parsed
  · rw [if_pos h, if_pos h, List.append_nil]
  · rw [if_neg h, if_neg h]

lemma slLoopStep_parsed_mono (st : SLState) (L : Loop) :
    st.parsed ⊆ (secondLawLoopStep st L).parsed := by
  unfold secondLawLoopStep
  by_cases h : loopWidSet L ⊆ st.parsed
  · rw [if_pos h]
  · rw [if_neg h]
    exact Finset.subset_union_left

lemma slLoopFold_parsed_mono :
    ∀ (loops : List Loop) (st : SLState),
      st.parsed ⊆ (loops.foldl secondLawLoopStep st).parsed
  | [], st => Finset.Subset.refl _
  | L :: rest, st =>
    (slLoopStep_parsed_mono st L).trans (slLoopFold_parsed_mono rest _)

lemma slFold_parsed_mono (c : Circuit) :
    ∀ (ws : List Wire) (st : SLState),
      st.parsed ⊆ (ws.foldl (secondLawWireStep c) st).parsed
  | [], st => Finset.Subset.refl _
  | w :: rest, st =>
    (slLoopFold_parsed_mono (loopsOf c w) st).trans (slFold_parsed_mono c rest _)

lemma unionWids_append_one (eqs : List Loop) (L : Loop) :
    unionWids (eqs ++ [L]) = unionWids eqs ∪ loopWidSet L := by
  rw [unionWids, unionWids, List.foldl_append, List.foldl_cons, List.foldl_nil]

lemma slLoopStep_union (st : SLState) (L : Loop)
    (h : st.parsed = unionWids st.eqs) :
    (secondLawLoopStep st L).parsed = unionWids (secondLawLoopStep st L).eqs := by
  unfold secondLawLoopStep
  by_cases hs : loopWidSet L ⊆ st.parsed
  · rw [if_pos hs]; exact h
  · rw [if_neg hs]
    simp only
    rw [unionWids_append_one, h]

lemma slLoopFold_union :
    ∀ (loops : List Loop) (st : SLState),
      st.parsed = unionWids st.eqs →
      (loops.foldl secondLawLoopStep st).parsed
        = unionWids (loops.foldl secondLawLoopStep st).eqs
  | [], st, h => h
  | L :: rest, st, h => slLoopFold_union rest _ (slLoopStep_union st L h)

lemma slFold_union (c : Circuit) :
    ∀ (ws : List Wire) (st : SLState),
      st.parsed = unionWids st.eqs →
      (ws.foldl (secondLawWireStep c) st).parsed
        = unionWids (ws.foldl (secondLawWireStep c) st).eqs
  | [], st, h => h
  | w :: rest, st, h =>
    slFold_union c rest _ (slLoopFold_union (loopsOf c w) st h)

lemma loopsAux_extends_path (c : Circuit) (endpoint : ℕ) :
    ∀ (fuel curJ curW : ℕ) (path : Loop) (parsed : List ℕ) (L : Loop),
      L ∈ loopsAux c endpoint fuel curJ curW path parsed →
      ∃ ext, L = path ++ ext := by
  intro fuel
  induction fuel with
  | zero => intro curJ curW path parsed L h; simp [loopsAux] at h
  | succ n ih =>
    intro curJ curW path parsed L h
    rw [loopsAux, List.mem_flatMap] at h
    obtain ⟨nw, hnw, hbody⟩ := h
    by_cases h1 : nw.wid = curW
    · rw [if_pos h1] at hbody; simp at hbody
    · rw [if_neg h1] at hbody
      by_cases h2 : isNull c nw
      · rw [if_pos h2] at hbody; simp at hbody
      · rw [if_neg h2] at hbody
        by_cases h3 : otherJunction nw curJ = endpoint
        · rw [if_pos h3] at hbody
          rw [List.mem_singleton] at hbody
          exact ⟨_, hbody⟩
        · rw [if_neg h3] at hbody
          by_cases h4 : otherJunction nw curJ ∈ parsed
          · rw [if_pos h4] at hbody; simp at hbody
          · rw [if_neg h4] at hbody
            obtain ⟨ext, hext⟩ := ih _ _ _ _ _ hbody
            exact ⟨_, by rw [hext, List.append_assoc]⟩

lemma seed_mem_of_mem_loopsOf (c : Circuit) (w : Wire) (L : Loop)
    (h : L ∈ loopsOf c w) : w.wid ∈ loopWidSet L := by
  obtain ⟨ext, rfl⟩ := loopsAux_extends_path c w.startJ _ _ _ _ _ _ h
  simp [loopWidSet]

lemma covered_after_wireStep (c : Circuit) (st : SLState) (w : Wire)
    (hne : loopsOf c w ≠ []) :
    w.wid ∈ (secondLawWireStep c st w).parsed := by
  unfold secondLawWireStep
  obtain ⟨L0, rest, heq⟩ := List.exists_cons_of_ne_nil hne
  have hmem : L0 ∈ loopsOf c w := by rw [heq]; simp
  rw [heq, List.foldl_cons]
  refine Finset.mem_of_subset (slLoopFold_parsed_mono rest _) ?_
  unfold secondLawLoopStep
  by_cases hs : loopWidSet L0 ⊆ st.parsed
  · rw [if_pos hs]
    exact hs (seed_mem_of_mem_loopsOf c w L0 hmem)
  · rw [if_neg hs]
    exact Finset.mem_union_right _ (seed_mem_of_mem_loopsOf c w L0 hmem)

lemma coverage_fold (c : Circuit) :
    ∀ (ws : List Wire) (st : SLState),
      (∀ w ∈ ws, loopsOf c w ≠ []) →
      ∀ w ∈ ws, w.wid ∈ (ws.foldl (secondLawWireStep c) st).parsed
  | [], _, _, w, hw => absurd hw (List.not_mem_nil w)
  | w0 :: rest, st, hall, w, hw => by
    rw [List.foldl_cons]
    rcases List.mem_cons.mp hw with rfl | hrest
    · exact Finset.mem_of_subset (slFold_parsed_mono c rest _)
        (covered_after_wireStep c st w (hall w (by simp)))
    · exact coverage_fold c rest _ (fun x hx => hall x (List.mem_cons_of_mem _ hx))
        w hrest

lemma effective_loops_ne_nil (c : Circuit) (w : Wire)
    (h : w ∈ (calculateEffectiveWires c).1) : loopsOf c w ≠ [] := by
  rw [calculateEffectiveWires] at h
  simp only [List.mem_filter, Bool.not_eq_eq_eq_not, Bool.not_true] at h
  have h2 := h.2
  rw [wireNullClass, Bool.or_eq_false_iff] at h2
  intro contra
  rw [contra] at h2
  simp at h2

/-- C6: the inner step of `__second_law_wires` accepts a discovered loop
iff its wire set is not a subset of `parsed_wires`; `parsed_wires` is
exactly the union of the wire sets of the accepted equations; and when
selection finishes every effective wire is covered by some accepted
equation. -/
theorem C6_second_law_selection (c : Circuit) :
    (∀ (st : SLState) (L : Loop),
        (secondLawLoopStep st L).eqs
          = st.eqs ++ (if loopWidSet L ⊆ st.parsed then [] else [L]))
    ∧ (secondLawFold c (calculateEffectiveWires c).1).parsed
        = unionWids (secondLawFold c (calculateEffectiveWires c).1).eqs
    ∧ ∀ wid ∈ (calculateEffectiveWires c).1.map Wire.wid,
        wid ∈ (secondLawFold c (calculateEffectiveWires c).1).parsed := by
  refine ⟨slLoopStep_eqs, ?_, ?_⟩
  · exact slFold_union c _ _ rfl
  · intro wid hwid
    obtain ⟨w, hw, rfl⟩ := List.mem_map.mp hwid
    exact coverage_fold c _ _ (fun x hx => effective_loops_ne_nil c x hx) w hw

/-! ## Claim C1: the reference node during potential propagation -/

/-- C1 fails on the code: `__calculate_potentials(self.earth, [])` starts
with an *empty* `calculated` list, so the earth junction itself is not
marked visited.  On the `triEarth` triangle with a single time sample the
propagation reaches junction `1`, finds earth unvisited across the back
wire, and appends a second batch of one potential value per sample to the
earth series: earth ends with `2` entries for `1` sample (the other
junctions correctly get exactly one), and earth appears in the final
`calculated` list (`[1, 2, 0]`) — it was visited a second time — contrary
to the claims that each node is visited at most once and that the reference
series has exactly one entry per sample. -/
theorem C1_earth_revisited :
    ((potentialPass triEarth [0]).1 0).length = 2
      ∧ ((potentialPass triEarth [0]).1 1).length = 1
      ∧ ((potentialPass triEarth [0]).1 2).length = 1
      ∧ ([(0 : ℚ)]).length = 1
      ∧ (potentialPass triEarth [0]).2 = [1, 2, 0]
      ∧ (2 : ℕ) ≠ 1 := by decide

/-- Witness for C6: coverage of the first parallel wire of `openPair`. -/
theorem C6_witness :
    (mkWire 0 0 1 false).wid ∈ (calculateEffectiveWires openPair).1.map Wire.wid
      ∧ (mkWire 0 0 1 false).wid
        ∈ (secondLawFold openPair (calculateEffectiveWires openPair).1).parsed :=
  ⟨by decide, (C6_second_law_selection openPair).2.2 _ (by decide)⟩

end Circuits

namespace Circuits

/-- The junction at which a signed traversal enters its wire. -/
def entryJ (p : SWire) : ℕ :=
  match p.2 with
  | Sign.PLUS => p.1.startJ
  | _ => p.1.endJ

/-- The junction at which a signed traversal leaves its wire. -/
def exitJ (p : SWire) : ℕ :=
  match p.2 with
  | Sign.PLUS => p.1.endJ
  | _ => p.1.startJ

/-- Sign flip; reversing a traversal swaps entry and exit. -/
def flipSign (p : SWire) : SWire :=
  match p.2 with
  | Sign.PLUS => (p.1, Sign.MINUS)
  | _ => (p.1, Sign.PLUS)

/-- A chain of non-null, non-self-loop circuit wires whose consecutive
traversal junctions link `a` to `b`. -/
def IsChain (c : Circuit) : ℕ → ℕ → Loop → Prop
  | a, b, [] => a = b
  | a, b, p :: rest =>
      p.1 ∈ c.wires ∧ isNull c p.1 = false ∧ p.1.startJ ≠ p.1.endJ
        ∧ entryJ p = a ∧ IsChain c (exitJ p) b rest

lemma entry_exit_pair (p : SWire) :
    (entryJ p = p.1.startJ ∧ exitJ p = p.1.endJ)
      ∨ (entryJ p = p.1.endJ ∧ exitJ p = p.1.startJ) := by
  cases h : p.2 <;> simp [entryJ, exitJ, h]

lemma flipSign_wire (p : SWire) : (flipSign p).1 = p.1 := by
  cases h : p.2 <;> simp [flipSign, h]

lemma entryJ_flipSign (p : SWire) : entryJ (flipSign p) = exitJ p := by
  cases h : p.2 <;> simp [flipSign, entryJ, exitJ, h]

lemma exitJ_flipSign (p : SWire) : exitJ (flipSign p) = entryJ p := by
  cases h : p.2 <;> simp [flipSign, entryJ, exitJ, h]

lemma otherJunction_entry (p : SWire) (hss : p.1.startJ ≠ p.1.endJ) :
    otherJunction p.1 (entryJ p) = exitJ p := by
  rcases entry_exit_pair p with ⟨h1, h2⟩ | ⟨h1, h2⟩
  · rw [h1, h2, otherJunction, if_pos rfl]
  · rw [h1, h2, otherJunction, if_neg (Ne.symm hss)]

lemma chain_append (c : Circuit) :
    ∀ (l1 l2 : Loop) (a m b : ℕ),
      IsChain c a m l1 → IsChain c m b l2 → IsChain c a b (l1 ++ l2)
  | [], l2, a, m, b, h1, h2 => by
    rw [show a = m from h1]; exact h2
  | p :: rest, l2, a, m, b, h1, h2 => by
    obtain ⟨hw, hn, hs, he, hc⟩ := h1
    exact ⟨hw, hn, hs, he, chain_append c rest l2 _ m b hc h2⟩

lemma chain_split (c : Circuit) :
    ∀ (l1 l2 : Loop) (a b : ℕ),
      IsChain c a b (l1 ++ l2) → ∃ m, IsChain c a m l1 ∧ IsChain c m b l2
  | [], l2, a, b, h => ⟨a, rfl, h⟩
  | p :: rest, l2, a, b, h => by
    obtain ⟨hw, hn, hs, he, hc⟩ := h
    obtain ⟨m, hm1, hm2⟩ := chain_split c rest l2 _ b hc
    exact ⟨m, ⟨hw, hn, hs, he, hm1⟩, hm2⟩

lemma chain_reverse (c : Circuit) :
    ∀ (l : Loop) (a b : ℕ),
      IsChain c a b l → IsChain c b a ((l.map flipSign).reverse)
  | [], a, b, h => by
    rw [show a = b from h]; exact rfl
  | p :: rest, a, b, h => by
    obtain ⟨hw, hn, hs, he, hc⟩ := h
    have hrev := chain_reverse c rest _ b hc
    rw [List.map_cons, List.reverse_cons]
    refine chain_append c _ [flipSign p] b (exitJ p) a hrev ?_
    refine ⟨by rw [flipSign_wire]; exact hw, by rw [flipSign_wire]; exact hn,
      by rw [flipSign_wire]; exact hs, entryJ_flipSign p, ?_⟩
    rw [exitJ_flipSign]
    exact he

lemma chain_wire_mem (c : Circuit) :
    ∀ (l : Loop) (a b : ℕ), IsChain c a b l →
      ∀ p ∈ l, p.1 ∈ c.wires ∧ isNull c p.1 = false ∧ p.1.startJ ≠ p.1.endJ
  | [], _, _, _, p, hp => absurd hp (List.not_mem_nil p)
  | q :: rest, a, b, h, p, hp => by
    obtain ⟨hw, hn, hs, he, hc⟩ := h
    rcases List.mem_cons.mp hp with rfl | hrest
    · exact ⟨hw, hn, hs⟩
    · exact chain_wire_mem c rest _ b hc p hrest

lemma chain_entries (c : Circuit) :
    ∀ (l : Loop) (a b : ℕ), IsChain c a b l →
      l.map entryJ = (a :: l.map exitJ).dropLast
  | [], _, _, _ => rfl
  | p :: rest, a, b, h => by
    obtain ⟨hw, hn, hs, he, hc⟩ := h
    rw [List.map_cons, chain_entries c rest _ b hc, List.map_cons]
    cases hr : rest.map exitJ with
    | nil => simp [he]
    | cons x xs => simp [he]

lemma flatMap_ne_nil {α β : Type} {l : List α} {f : α → List β} (x : α)
    (hx : x ∈ l) (hf : f x ≠ []) : l.flatMap f ≠ [] := by
  obtain ⟨y, hy⟩ := List.exists_mem_of_ne_nil _ hf
  exact List.ne_nil_of_mem (List.mem_flatMap.mpr ⟨x, hx, hy⟩)

/-- Completeness of the loop search: a junction-simple chain of non-null
wires from the current junction to the endpoint, starting with a wire other
than the one just traversed and avoiding the already-parsed junctions,
guarantees at least one recorded loop. -/
lemma loopsAux_complete (c : Circuit) (endpoint : ℕ) :
    ∀ (ext : Loop) (fuel curJ curW : ℕ) (path : Loop) (parsed : List ℕ),
      IsChain c curJ endpoint ext →
      ext ≠ [] →
      ext.length ≤ fuel →
      (ext.map (fun p => p.1.wid)).Nodup →
      (∀ p, ext.head? = some p → p.1.wid ≠ curW) →
      ((ext.map exitJ).dropLast).Nodup →
      (∀ x ∈ (ext.map exitJ).dropLast, x ∉ parsed) →
      loopsAux c endpoint fuel curJ curW path parsed ≠ []
  | [], fuel, curJ, curW, path, parsed, _, hne, _, _, _, _, _ => absurd rfl hne
  | p :: rest, fuel, curJ, curW, path, parsed,
      hchain, _, hlen, hnd, hhead, hexnd, hexpar => by
    obtain ⟨hw, hn, hs, he, hc⟩ := hchain
    cases fuel with
    | zero => simp at hlen
    | succ f =>
      rw [loopsAux]
      have hmem : p.1 ∈ incidentWires c curJ := by
        rw [incidentWires, List.mem_filter]
        refine ⟨hw, ?_⟩
        rcases entry_exit_pair p with ⟨h1, _⟩ | ⟨h1, _⟩
        · simp [← h1, he]
        · simp [← h1, he]
      refine flatMap_ne_nil p.1 hmem ?_
      have hwid : ¬(p.1.wid = curW) := hhead p rfl
      rw [if_neg hwid, if_neg (by simp [hn])]
      have hnxt : otherJunction p.1 curJ = exitJ p := by
        rw [← he]; exact otherJunction_entry p hs
      by_cases hend : otherJunction p.1 curJ = endpoint
      · rw [if_pos hend]
        simp
      · rw [if_neg hend]
        cases rest with
        | nil =>
          have hce : exitJ p = endpoint := hc
          exact absurd (hnxt.trans hce) hend
        | cons q qrest =>
          have hdrop : (((p :: q :: qrest).map exitJ)).dropLast
              = exitJ p :: (((q :: qrest).map exitJ)).dropLast := by
            simp
          have hxp : exitJ p ∉ parsed := by
            refine hexpar (exitJ p) ?_
            rw [hdrop]; simp
          rw [hnxt, if_neg hxp]
          rw [List.map_cons, List.nodup_cons] at hnd
          rw [hdrop, List.nodup_cons] at hexnd
          refine loopsAux_complete c endpoint (q :: qrest) f (exitJ p) p.1.wid _ _
            hc (by simp) (by simpa using hlen) hnd.2 ?_ hexnd.2 ?_
          · intro r hr hcontra
            have hrq : r = q := by simpa using hr.symm
            refine hnd.1 (List.mem_map.mpr ⟨r, ?_, hcontra⟩)
            rw [hrq]
            exact List.mem_cons_self _ _
          · intro x hx
            rw [List.mem_append]
            push_neg
            constructor
            · exact hexpar x (by rw [hdrop]; exact List.mem_cons_of_mem _ hx)
            · simp only [List.mem_singleton]
              intro hxe
              exact hexnd.1 (hxe ▸ hx)

end Circuits

namespace Circuits

/-- A loop as recorded by the search: a closed chain with pairwise distinct
exit junctions and pairwise distinct wire ids. -/
def IsSimpleCycle (c : Circuit) (endpoint : ℕ) (L : Loop) : Prop :=
  IsChain c endpoint endpoint L ∧ (L.map exitJ).Nodup
    ∧ (L.map (fun p => p.1.wid)).Nodup

/-- Invariant of a `loopsAux` call state. -/
structure AuxInv (c : Circuit) (endpoint curJ curW : ℕ)
    (path : Loop) (parsed : List ℕ) : Prop where
  chain : IsChain c endpoint curJ path
  exits : path.map exitJ = parsed
  cur_mem : curJ ∈ parsed
  end_not : endpoint ∉ parsed
  nodup : parsed.Nodup
  wids : (path.map (fun p => p.1.wid)).Nodup
  last_wid : ∀ q ∈ path, (entryJ q = curJ ∨ exitJ q = curJ) → q.1.wid = curW
  entries_mem : ∀ q ∈ path, entryJ q ∈ endpoint :: parsed

lemma step_entry_exit (nw : Wire) (curJ : ℕ) (hss : nw.startJ ≠ nw.endJ)
    (hinc : nw.startJ = curJ ∨ nw.endJ = curJ) :
    entryJ (nw, if curJ = nw.startJ then Sign.PLUS else Sign.MINUS) = curJ
      ∧ exitJ (nw, if curJ = nw.startJ then Sign.PLUS else Sign.MINUS)
        = otherJunction nw curJ := by
  by_cases hcs : curJ = nw.startJ
  · rw [if_pos hcs]
    constructor
    · simp [entryJ, hcs]
    · simp [exitJ, otherJunction, hcs]
  · have hend : nw.endJ = curJ := by
      rcases hinc with h | h
      · exact absurd h.symm hcs
      · exact h
    rw [if_neg hcs]
    constructor
    · simp [entryJ, hend]
    · simp [exitJ, otherJunction, hcs]

lemma wid_eq_wire_eq {c : Circuit} (hwf : WF c) {x y : Wire}
    (hx : x ∈ c.wires) (hy : y ∈ c.wires) (hxy : x.wid = y.wid) : x = y :=
  List.inj_on_of_nodup_map hwf.1 hx hy hxy

lemma mem_incident_decomp {c : Circuit} {j : ℕ} {w : Wire}
    (h : w ∈ incidentWires c j) : w ∈ c.wires ∧ (w.startJ = j ∨ w.endJ = j) := by
  rw [incidentWires, List.mem_filter] at h
  refine ⟨h.1, ?_⟩
  have := h.2
  simp only [Bool.or_eq_true, decide_eq_true_eq] at this
  exact this

lemma loopsAux_sound (c : Circuit) (hwf : WF c) (endpoint : ℕ) :
    ∀ (fuel curJ curW : ℕ) (path : Loop) (parsed : List ℕ) (L : Loop),
      L ∈ loopsAux c endpoint fuel curJ curW path parsed →
      AuxInv c endpoint curJ curW path parsed →
      IsSimpleCycle c endpoint L := by
  intro fuel
  induction fuel with
  | zero => intro curJ curW path parsed L h inv; simp [loopsAux] at h
  | succ n ih =>
    intro curJ curW path parsed L h inv
    rw [loopsAux, List.mem_flatMap] at h
    obtain ⟨nw, hnw, hbody⟩ := h
    obtain ⟨hnwW, hinc⟩ := mem_incident_decomp hnw
    by_cases h1 : nw.wid = curW
    · rw [if_pos h1] at hbody; simp at hbody
    · rw [if_neg h1] at hbody
      by_cases h2 : isNull c nw
      · rw [if_pos h2] at hbody; simp at hbody
      · rw [if_neg h2] at hbody
        have h2f : isNull c nw = false := by
          cases hh : isNull c nw
          · rfl
          · exact absurd hh h2
        have hss : nw.startJ ≠ nw.endJ := (hwf.2 nw hnwW).1
        obtain ⟨hen, hex⟩ := step_entry_exit nw curJ hss hinc
        have hfresh : nw.wid ∉ path.map (fun p => p.1.wid) := by
          intro hmemw
          obtain ⟨q, hq, hqw⟩ := List.mem_map.mp hmemw
          have hqc := chain_wire_mem c path endpoint curJ inv.chain q hq
          have hqe : q.1 = nw := wid_eq_wire_eq hwf hqc.1 hnwW hqw
          have hcur : entryJ q = curJ ∨ exitJ q = curJ := by
            rcases entry_exit_pair q with ⟨e1, e2⟩ | ⟨e1, e2⟩
            · rw [e1, e2, hqe]; exact hinc
            · rw [e1, e2, hqe]; exact hinc.symm
          exact h1 (by rw [← hqw]; exact inv.last_wid q hq hcur)
        have hchain1 : IsChain c curJ (otherJunction nw curJ)
            [(nw, if curJ = nw.startJ then Sign.PLUS else Sign.MINUS)] := by
          refine ⟨hnwW, h2f, hss, hen, ?_⟩
          exact hex
        by_cases h3 : otherJunction nw curJ = endpoint
        · rw [if_pos h3] at hbody
          rw [List.mem_singleton] at hbody
          subst hbody
          refine ⟨?_, ?_, ?_⟩
          · exact chain_append c path _ endpoint curJ endpoint inv.chain
              (h3 ▸ hchain1)
          · rw [List.map_append]
            have hone : ([(nw, if curJ = nw.startJ then Sign.PLUS
                else Sign.MINUS)] : Loop).map exitJ = [endpoint] := by
              simp only [List.map_cons, List.map_nil]
              rw [hex, h3]
            rw [hone, inv.exits]
            rw [List.nodup_append]
            refine ⟨inv.nodup, List.nodup_singleton _, ?_⟩
            intro x hx hx1
            rw [List.mem_singleton] at hx1
            subst hx1
            exact inv.end_not hx
          · rw [List.map_append]
            rw [List.nodup_append]
            refine ⟨inv.wids, List.nodup_singleton _, ?_⟩
            intro x hx hx1
            simp only [List.map_cons, List.map_nil, List.mem_singleton] at hx1
            subst hx1
            exact hfresh hx
        · rw [if_neg h3] at hbody
          by_cases h4 : otherJunction nw curJ ∈ parsed
          · rw [if_pos h4] at hbody; simp at hbody
          · rw [if_neg h4] at hbody
            refine ih _ _ _ _ L hbody ?_
            constructor
            · exact chain_append c path _ endpoint curJ _ inv.chain hchain1
            · rw [List.map_append, inv.exits]
              simp only [List.map_cons, List.map_nil]
              rw [hex]
            · exact List.mem_append_right _ (List.mem_singleton_self _)
            · rw [List.mem_append]
              push_neg
              exact ⟨inv.end_not, by
                rw [List.mem_singleton]
                exact fun hc => h3 hc.symm⟩
            · rw [List.nodup_append]
              exact ⟨inv.nodup, List.nodup_singleton _, fun x hx hx1 => by
                rw [List.mem_singleton] at hx1
                subst hx1
                exact h4 hx⟩
            · rw [List.map_append, List.nodup_append]
              refine ⟨inv.wids, List.nodup_singleton _, fun x hx hx1 => ?_⟩
              simp only [List.map_cons, List.map_nil, List.mem_singleton] at hx1
              subst hx1
              exact hfresh hx
            · intro q hq hcur
              rcases List.mem_append.mp hq with hqp | hqn
              · exfalso
                rcases hcur with hce | hcx
                · have := inv.entries_mem q hqp
                  rw [hce] at this
                  rcases List.mem_cons.mp this with hh | hh
                  · exact h3 hh
                  · exact h4 hh
                · have : exitJ q ∈ parsed := by
                    rw [← inv.exits]
                    exact List.mem_map_of_mem exitJ hqp
                  rw [hcx] at this
                  exact h4 this
              · rw [List.mem_singleton] at hqn
                subst hqn
                rfl
            · intro q hq
              rcases List.mem_append.mp hq with hqp | hqn
              · have := inv.entries_mem q hqp
                rcases List.mem_cons.mp this with hh | hh
                · rw [hh]; exact List.mem_cons_self _ _
                · exact List.mem_cons_of_mem _ (List.mem_append_left _ hh)
              · rw [List.mem_singleton] at hqn
                subst hqn
                rw [hen]
                exact List.mem_cons_of_mem _ (List.mem_append_left _ inv.cur_mem)

end Circuits

namespace Circuits

lemma chain_exits_concat (c : Circuit) :
    ∀ (l : Loop) (a b : ℕ), IsChain c a b l → l ≠ [] →
      ∃ xs, l.map exitJ = xs ++ [b]
  | [], _, _, _, hne => absurd rfl hne
  | p :: rest, a, b, h, _ => by
    obtain ⟨hw, hn, hs, he, hc⟩ := h
    cases rest with
    | nil =>
      have hce : exitJ p = b := hc
      exact ⟨[], by simp [hce]⟩
    | cons q qrest =>
      obtain ⟨xs, hxs⟩ := chain_exits_concat c (q :: qrest) _ b hc (by simp)
      exact ⟨exitJ p :: xs, by rw [List.map_cons, hxs]; rfl⟩

lemma widlist_length_le (c : Circuit) (L : Loop)
    (hmem : ∀ q ∈ L, q.1 ∈ c.wires)
    (hnd : (L.map (fun q => q.1.wid)).Nodup) :
    L.length ≤ c.wires.length := by
  have h1 : (L.map (fun q => q.1.wid)).toFinset.card = L.length := by
    rw [List.toFinset_card_of_nodup hnd, List.length_map]
  have h2 : (L.map (fun q => q.1.wid)).toFinset ⊆ (c.wires.map Wire.wid).toFinset := by
    intro x hx
    rw [List.mem_toFinset] at hx ⊢
    obtain ⟨q, hq, rfl⟩ := List.mem_map.mp hx
    exact List.mem_map_of_mem _ (hmem q hq)
  calc L.length = (L.map (fun q => q.1.wid)).toFinset.card := h1.symm
    _ ≤ (c.wires.map Wire.wid).toFinset.card := Finset.card_le_card h2
    _ ≤ (c.wires.map Wire.wid).length := List.toFinset_card_le _
    _ = c.wires.length := List.length_map _ _

lemma nodup_append_swap {l1 l2 : List ℕ} (h : (l1 ++ l2).Nodup) :
    (l2 ++ l1).Nodup :=
  (List.perm_append_comm.nodup_iff).mp h

lemma nodup_swire_append_swap {l1 l2 : List SWire}
    {f : SWire → ℕ} (h : ((l1 ++ l2).map f).Nodup) : ((l2 ++ l1).map f).Nodup := by
  rw [List.map_append] at h ⊢
  exact nodup_append_swap h

end Circuits

namespace Circuits

/-- Rotation of a discovered simple cycle: every wire on it admits a
loop of its own, so its own loop search returns at least one loop. -/
lemma cycle_rotation_seed (c : Circuit) (hwf : WF c) (endpoint : ℕ) (L : Loop)
    (hcyc : IsSimpleCycle c endpoint L) (p : SWire) (hp : p ∈ L) :
    loopsOf c p.1 ≠ [] := by
  obtain ⟨hchain, hexnd, hwnd⟩ := hcyc
  obtain ⟨pre, post, rfl⟩ := List.append_of_mem hp
  obtain ⟨m, hpre, hrest⟩ := chain_split c pre (p :: post) endpoint endpoint hchain
  obtain ⟨hwp, hnp, hssp, hep, hpost⟩ := hrest
  have hpre' : IsChain c endpoint (entryJ p) pre := by rw [hep]; exact hpre
  have hres : IsChain c (exitJ p) (entryJ p) (post ++ pre) :=
    chain_append c post pre _ endpoint _ hpost hpre'
  rw [List.map_append, List.map_cons] at hwnd
  have hwnd2 := List.nodup_middle.mp hwnd
  have hwnotin := (List.nodup_cons.mp hwnd2).1
  have hwnd3 := (List.nodup_cons.mp hwnd2).2
  have hwid_nd : ((post ++ pre).map (fun q => q.1.wid)).Nodup := by
    rw [← List.map_append] at hwnd3
    exact nodup_swire_append_swap hwnd3
  have hwid_all : ∀ q ∈ post ++ pre, q.1.wid ≠ p.1.wid := by
    intro q hq hcontra
    apply hwnotin
    rw [← hcontra]
    rw [List.mem_append] at hq
    rw [List.mem_append]
    rcases hq with h | h
    · exact Or.inr (List.mem_map_of_mem _ h)
    · exact Or.inl (List.mem_map_of_mem _ h)
  rw [List.map_append, List.map_cons] at hexnd
  have hxnd2 := List.nodup_middle.mp hexnd
  have hxnotin := (List.nodup_cons.mp hxnd2).1
  have hxnd3 := (List.nodup_cons.mp hxnd2).2
  have hexnd' : (exitJ p :: (post ++ pre).map exitJ).Nodup := by
    rw [List.map_append]
    refine List.nodup_cons.mpr ⟨?_, nodup_append_swap hxnd3⟩
    intro hc
    apply hxnotin
    rw [List.mem_append] at hc
    rw [List.mem_append]
    exact hc.symm
  have hne : post ++ pre ≠ [] := by
    intro h0
    obtain ⟨hpost0, hpre0⟩ := List.append_eq_nil.mp h0
    subst hpost0
    subst hpre0
    have h1 : exitJ p = endpoint := hpost
    have h2 : endpoint = m := hpre
    have h3 : entryJ p = exitJ p := by rw [hep, ← h2, h1]
    rcases entry_exit_pair p with ⟨e1, e2⟩ | ⟨e1, e2⟩
    · exact hssp (by rw [← e1, ← e2, h3])
    · exact hssp (by rw [← e2, ← e1, ← h3])
  have hLlen : (pre ++ p :: post).length ≤ c.wires.length := by
    refine widlist_length_le c _ (fun q hq => (chain_wire_mem c _ _ _ hchain q hq).1) ?_
    rw [List.map_append, List.map_cons]
    exact hwnd
  have hlen : (post ++ pre).length ≤ dfsFuel c := by
    rw [dfsFuel]
    have h5 : (post ++ pre).length + 1 = (pre ++ p :: post).length := by
      simp [List.length_append]
      omega
    omega
  rcases entry_exit_pair p with ⟨e1, e2⟩ | ⟨e1, e2⟩
  · rw [loopsOf]
    refine loopsAux_complete c p.1.startJ (post ++ pre) (dfsFuel c)
      p.1.endJ p.1.wid _ _ ?_ hne hlen hwid_nd ?_ ?_ ?_
    · rw [← e2, ← e1]; exact hres
    · intro p0 hh
      exact hwid_all p0 (List.mem_of_mem_head? hh)
    · exact ((List.nodup_cons.mp hexnd').2).sublist (List.dropLast_sublist _)
    · intro x hx
      rw [List.mem_singleton]
      intro hxe
      refine (List.nodup_cons.mp hexnd').1 ?_
      rw [← e2] at hxe
      rw [← hxe]
      exact (List.dropLast_sublist _).subset hx
  · obtain ⟨xs, hxs⟩ := chain_exits_concat c (post ++ pre) _ _ hres hne
    have hextexit : (((post ++ pre).map flipSign).reverse).map exitJ
        = xs.reverse ++ [exitJ p] := by
      have h1 : (((post ++ pre).map flipSign).reverse).map exitJ
          = ((post ++ pre).map entryJ).reverse := by
        rw [List.map_reverse, List.map_map]
        have hfun : (exitJ ∘ flipSign) = entryJ := funext exitJ_flipSign
        rw [hfun]
      rw [h1, chain_entries c (post ++ pre) _ _ hres, hxs, ← List.cons_append,
        List.dropLast_concat, List.reverse_cons]
    have hxsnd : xs.Nodup := by
      have h6 := (List.nodup_cons.mp hexnd').2
      rw [hxs] at h6
      exact (List.nodup_append.mp h6).1
    have hxsdisj : ∀ x ∈ xs, x ≠ entryJ p := by
      have h6 := (List.nodup_cons.mp hexnd').2
      rw [hxs] at h6
      intro x hx hcontra
      refine (List.nodup_append.mp h6).2.2 hx ?_
      rw [List.mem_singleton]
      exact hcontra
    rw [loopsOf]
    refine loopsAux_complete c p.1.startJ (((post ++ pre).map flipSign).reverse)
      (dfsFuel c) p.1.endJ p.1.wid _ _ ?_ ?_ ?_ ?_ ?_ ?_ ?_
    · rw [← e1, ← e2]
      exact chain_reverse c _ _ _ hres
    · simp only [ne_eq, List.reverse_eq_nil_iff, List.map_eq_nil_iff]
      exact hne
    · rw [List.length_reverse, List.length_map]
      exact hlen
    · have hmapw : ((((post ++ pre).map flipSign).reverse).map (fun q => q.1.wid))
          = (((post ++ pre).map (fun q => q.1.wid))).reverse := by
        rw [List.map_reverse, List.map_map]
        have hfun : ((fun (q : SWire) => q.1.wid) ∘ flipSign)
            = (fun (q : SWire) => q.1.wid) := by
          funext q
          simp [flipSign_wire]
        rw [hfun]
      rw [hmapw, List.nodup_reverse]
      exact hwid_nd
    · intro p0 hh
      have hp0 : p0 ∈ ((post ++ pre).map flipSign).reverse :=
        List.mem_of_mem_head? hh
      rw [List.mem_reverse, List.mem_map] at hp0
      obtain ⟨q, hq, rfl⟩ := hp0
      rw [flipSign_wire]
      exact hwid_all q hq
    · rw [hextexit, List.dropLast_concat, List.nodup_reverse]
      exact hxsnd
    · intro x hx
      rw [hextexit, List.dropLast_concat, List.mem_reverse] at hx
      rw [List.mem_singleton]
      intro hcontra
      exact hxsdisj x hx (by rw [hcontra, ← e1])

end Circuits

namespace Circuits

/-- Every loop returned for a non-null seed of a wellformed circuit is a
simple cycle based at the seed's starting junction. -/
lemma loopsOf_sound (c : Circuit) (hwf : WF c) (w : Wire) (hw : w ∈ c.wires)
    (hn : isNull c w = false) (L : Loop) (hL : L ∈ loopsOf c w) :
    IsSimpleCycle c w.startJ L := by
  have hss := (hwf.2 w hw).1
  refine loopsAux_sound c hwf w.startJ (dfsFuel c) w.endJ w.wid _ _ L hL ?_
  constructor
  · exact ⟨hw, hn, hss, rfl, rfl⟩
  · rfl
  · exact List.mem_singleton_self _
  · rw [List.mem_singleton]
    exact hss
  · exact List.nodup_singleton _
  · exact List.nodup_singleton _
  · intro q hq _
    rw [List.mem_singleton] at hq
    subst hq
    rfl
  · intro q hq
    rw [List.mem_singleton] at hq
    subst hq
    exact List.mem_cons_self _ _

lemma effective_of_parts (c : Circuit) (w : Wire) (hw : w ∈ c.wires)
    (hn : isNull c w = false) (hl : loopsOf c w ≠ []) :
    w ∈ (calculateEffectiveWires c).1 := by
  rw [calculateEffectiveWires, List.mem_filter]
  refine ⟨hw, ?_⟩
  have hie : (loopsOf c w).isEmpty = false := by
    cases hcase : loopsOf c w with
    | nil => exact absurd hcase hl
    | cons a t => rfl
  rw [wireNullClass, hn, hie]
  rfl

/-- Every wire appearing on a discovered loop of a non-null seed is itself
classified effective. -/
lemma loop_members_effective (c : Circuit) (hwf : WF c) (w : Wire)
    (hw : w ∈ c.wires) (hn : isNull c w = false) (L : Loop)
    (hL : L ∈ loopsOf c w) : ∀ p ∈ L, p.1 ∈ (calculateEffectiveWires c).1 := by
  intro p hp
  have hcyc := loopsOf_sound c hwf w hw hn L hL
  have hpc := chain_wire_mem c L _ _ hcyc.1 p hp
  exact effective_of_parts c p.1 hpc.1 hpc.2.1
    (cycle_rotation_seed c hwf w.startJ L hcyc p hp)

lemma effective_parts_of_mem (c : Circuit) (w : Wire)
    (h : w ∈ (calculateEffectiveWires c).1) :
    w ∈ c.wires ∧ isNull c w = false ∧ loopsOf c w ≠ [] := by
  rw [calculateEffectiveWires, List.mem_filter] at h
  refine ⟨h.1, ?_, ?_⟩
  · have h2 := h.2
    rw [Bool.not_eq_eq_eq_not, Bool.not_true, wireNullClass,
      Bool.or_eq_false_iff] at h2
    exact h2.1
  · have h2 := h.2
    rw [Bool.not_eq_eq_eq_not, Bool.not_true, wireNullClass,
      Bool.or_eq_false_iff] at h2
    intro hcontra
    rw [hcontra] at h2
    simp at h2

lemma not_null_effective (c : Circuit) (w : Wire) (hw : w ∈ c.wires)
    (hnw : w.wid ∉ nullWidsOf c) : w ∈ (calculateEffectiveWires c).1 := by
  by_cases hcl : wireNullClass c w
  · exfalso
    apply hnw
    rw [nullWidsOf]
    refine List.mem_map_of_mem _ ?_
    rw [calculateEffectiveWires, List.mem_filter]
    exact ⟨hw, hcl⟩
  · rw [calculateEffectiveWires, List.mem_filter]
    exact ⟨hw, by rw [Bool.not_eq_eq_eq_not, Bool.not_true]
                  exact Bool.not_eq_true _ ▸ (by simpa using hcl)⟩

lemma firstLawFold_wire_effective (c : Circuit) :
    ∀ (js : List ℕ) (st : FLState),
      (∀ L ∈ st.eqs, ∀ p ∈ L, p.1 ∈ (calculateEffectiveWires c).1) →
      ∀ L ∈ (js.foldl (firstLawStep c (nullWidsOf c)) st).eqs, ∀ p ∈ L,
        p.1 ∈ (calculateEffectiveWires c).1
  | [], st, h => h
  | j :: rest, st, h => by
    rw [List.foldl_cons]
    refine firstLawFold_wire_effective c rest _ ?_
    unfold firstLawStep
    by_cases h01 : (junctionWires c (nullWidsOf c) j).length = 0
        ∨ (junctionWires c (nullWidsOf c) j).length = 1
    · rw [if_pos h01]; exact h
    · rw [if_neg h01]
      by_cases hmem : flCandSet (junctionWires c (nullWidsOf c) j) ∈ st.combos
      · rw [if_pos hmem]; exact h
      · rw [if_neg hmem]
        intro L hL p hp
        simp only [List.mem_append, List.mem_singleton] at hL
        rcases hL with hL | rfl
        · exact h L hL p hp
        · rw [junctionEq, List.mem_map] at hp
          obtain ⟨w0, hw0, rfl⟩ := hp
          rw [junctionWires, List.mem_filter] at hw0
          have hwc := (mem_incident_decomp hw0.1).1
          have hnn : w0.wid ∉ nullWidsOf c := by
            have h9 := hw0.2
            simp only [Bool.not_eq_eq_eq_not, Bool.not_true] at h9
            simpa using h9
          exact not_null_effective c w0 hwc hnn

end Circuits

namespace Circuits

lemma slLoopFold_prop (P : Loop → Prop) :
    ∀ (loops : List Loop) (st : SLState),
      (∀ L ∈ st.eqs, P L) → (∀ L ∈ loops, P L) →
      ∀ L ∈ (loops.foldl secondLawLoopStep st).eqs, P L
  | [], _, h, _ => h
  | L0 :: rest, st, h, hall => by
    rw [List.foldl_cons]
    refine slLoopFold_prop P rest _ ?_
      (fun L hL => hall L (List.mem_cons_of_mem _ hL))
    unfold secondLawLoopStep
    by_cases hs : loopWidSet L0 ⊆ st.parsed
    · rw [if_pos hs]; exact h
    · rw [if_neg hs]
      intro L hL
      simp only [List.mem_append, List.mem_singleton] at hL
      rcases hL with hL | rfl
      · exact h L hL
      · exact hall _ (List.mem_cons_self _ _)

lemma slFold_wire_effective (c : Circuit) (hwf : WF c) :
    ∀ (ws : List Wire) (st : SLState),
      (∀ w ∈ ws, w ∈ (calculateEffectiveWires c).1) →
      (∀ L ∈ st.eqs, ∀ p ∈ L, p.1 ∈ (calculateEffectiveWires c).1) →
      ∀ L ∈ (ws.foldl (secondLawWireStep c) st).eqs, ∀ p ∈ L,
        p.1 ∈ (calculateEffectiveWires c).1
  | [], _, _, h => h
  | w :: rest, st, hws, h => by
    rw [List.foldl_cons]
    refine slFold_wire_effective c hwf rest _
      (fun x hx => hws x (List.mem_cons_of_mem _ hx)) ?_
    unfold secondLawWireStep
    have hwe := hws w (List.mem_cons_self _ _)
    obtain ⟨hwc, hwn, _⟩ := effective_parts_of_mem c w hwe
    exact slLoopFold_prop _ (loopsOf c w) st h
      (fun L hL => loop_members_effective c hwf w hwc hwn L hL)

/-- C8: classification partitions the wires by exactly the claimed
predicate — a wire is null iff its switch is open, a terminal has degree
`0` (missing junction) or `1` (dangling), or it lies on no discoverable
loop — and null wires never appear in a discovered loop or in a first- or
second-law equation (all of whose wires are classified effective). -/
theorem C8_classification (c : Circuit) (hwf : WF c) :
    ((calculateEffectiveWires c).1 = c.wires.filter (fun w => !wireNullClass c w)
      ∧ (calculateEffectiveWires c).2 = c.wires.filter (fun w => wireNullClass c w))
    ∧ (∀ w : Wire, wireNullClass c w
        = (!w.closed || degJ c w.startJ == 0 || degJ c w.endJ == 0
            || degJ c w.startJ == 1 || degJ c w.endJ == 1
            || (loopsOf c w).isEmpty))
    ∧ (∀ w ∈ c.wires, isNull c w = false →
        ∀ L ∈ loopsOf c w, ∀ p ∈ L, p.1 ∈ (calculateEffectiveWires c).1)
    ∧ (∀ L ∈ firstLawWires c (nullWidsOf c), ∀ p ∈ L,
        p.1 ∈ (calculateEffectiveWires c).1)
    ∧ (∀ L ∈ secondLawWires c (calculateEffectiveWires c).1, ∀ p ∈ L,
        p.1 ∈ (calculateEffectiveWires c).1) := by
  refine ⟨⟨rfl, rfl⟩, ?_, ?_, ?_, ?_⟩
  · intro w
    rfl
  · intro w hw hn L hL
    exact loop_members_effective c hwf w hw hn L hL
  · intro L hL
    exact firstLawFold_wire_effective c c.junctions ⟨[], [], []⟩
      (fun L0 hL0 => absurd hL0 (List.not_mem_nil L0)) L hL
  · intro L hL
    exact slFold_wire_effective c hwf (calculateEffectiveWires c).1 ⟨[], ∅⟩
      (fun w hw => hw) (fun L0 hL0 => absurd hL0 (List.not_mem_nil L0)) L hL

/-- Witness for C8 at the wellformed `K4` network. -/
theorem C8_witness :
    WF K4 ∧ ((calculateEffectiveWires K4).1
        = K4.wires.filter (fun w => !wireNullClass K4 w)) :=
  ⟨by decide, ((C8_classification K4 (by decide)).1).1⟩

end Circuits
